import Mathlib

/-!
Verification of the Active PTW bandit repository.

This file gives a shallow embedding, in Lean 4, of the numerical helpers,
the KT estimator, the Active Partition Tree Weighting model, the bandit
environment, the UCB family of policies and the MALG meta-policy of the
repository, and proves (or refutes) the frozen claims about them.

Modelling conventions:
* C++ `double` values are modelled by real numbers (`ℝ`); the IEEE special
  values that actually matter for a claim (the NaN and infinity results of
  `bernoulliRelEntropy`) are modelled by an explicit result type.
* Integer-valued quantities (counts, indices, windows) are modelled by
  `ℕ`/`ℤ` even when the source stores them in a `double`, since the source
  only ever adds or subtracts integers on them.
* Randomness is modelled by oracle inputs: each random draw made by the
  source is an explicit argument of the corresponding Lean function
  (a uniform real in `[0,1)`, a random index, a realized Bernoulli bit).
-/

namespace ActivePtwRepo

open scoped BigOperators

/-- Embedding of `logAdd` from `common.hpp`: given `log x` and `log y`,
compute `log (x + y)`, after swapping so that the exponent difference is
non-negative; if the difference is at least 100 the correction term
`log1p (exp d)` is replaced by `d` (the larger value dominates). -/
noncomputable def logAdd (logX logY : ℝ) : ℝ :=
  min logX logY +
    (if max logX logY - min logX logY < 100
     then Real.log (1 + Real.exp (max logX logY - min logX logY))
     else max logX logY - min logX logY)

lemma max_le_logAdd (a b : ℝ) : max a b ≤ logAdd a b := by
  unfold logAdd
  by_cases h : max a b - min a b < 100
  · simp only [if_pos h]
    have hlog : max a b - min a b ≤ Real.log (1 + Real.exp (max a b - min a b)) := by
      have h1 : Real.exp (max a b - min a b) ≤ 1 + Real.exp (max a b - min a b) := by
        linarith [Real.exp_pos (max a b - min a b)]
      calc max a b - min a b
          = Real.log (Real.exp (max a b - min a b)) := (Real.log_exp _).symm
        _ ≤ _ := Real.log_le_log (Real.exp_pos _) h1
    linarith
  · simp only [if_neg h]
    linarith

lemma le_logAdd_left (a b : ℝ) : a ≤ logAdd a b :=
  le_trans (le_max_left a b) (max_le_logAdd a b)

/-- Result type for `bernoulliRelEntropy`: a C++ `double` result that may be
NaN or `+∞` besides an ordinary finite value. -/
inductive KLResult where
  | nan : KLResult
  | inf : KLResult
  | fin : ℝ → KLResult

/-- Models `-std::log x` for an argument `x ∈ [0,1]` under IEEE semantics:
`std::log 0 = -∞`, so the negation is `+∞`; for `x > 0` the value is the
finite real `-log x`. -/
noncomputable def negLogIEEE (x : ℝ) : KLResult :=
  if x = 0 then KLResult.inf else KLResult.fin (-Real.log x)

/-- Embedding of `bernoulliRelEntropy` from `common.hpp`: the KL divergence
between Bernoulli(p) and Bernoulli(q) with the source's edge-case ladder,
in the source's order: range check, the two (0,0)/(1,1) singularities,
the `p = 0` and `p = 1` branches (which hit IEEE `log 0` when `q` is the
opposite endpoint), the `q ∈ {0,1}` branch, then the generic formula. -/
noncomputable def bernoulliRelEntropy (p q : ℝ) : KLResult :=
  if p < 0 ∨ q < 0 ∨ 1 < p ∨ 1 < q then KLResult.nan
  else if p = 0 ∧ q = 0 then KLResult.fin 0
  else if p = 1 ∧ q = 1 then KLResult.fin 0
  else if p = 0 then negLogIEEE (1 - q)
  else if p = 1 then negLogIEEE q
  else if q = 0 ∨ q = 1 then KLResult.inf
  else KLResult.fin (p * Real.log (p / q) + (1 - p) * Real.log ((1 - p) / (1 - q)))

/-- Embedding of the `KTEstimator` from `ptw.hpp`: two bit counts and the
running log-marginal `ℓ`. -/
structure KTEstimator where
  c0 : ℕ
  c1 : ℕ
  logKt : ℝ

/-- Fresh KT estimator: both counts zero, `ℓ = 0`. -/
def KTEstimator.init : KTEstimator := ⟨0, 0, 0⟩

/-- `KTEstimator::prob`: predictive probability of the next bit `b`,
`(c_b + 1/2) / (c₀ + c₁ + 1)`. -/
noncomputable def KTEstimator.prob (e : KTEstimator) (b : Bool) : ℝ :=
  ((if b then (e.c1 : ℝ) else (e.c0 : ℝ)) + 1 / 2) / (((e.c0 : ℝ) + (e.c1 : ℝ)) + 1)

/-- `KTEstimator::update`: add `log prob b` to `ℓ` (with the counts still
unchanged), then increment the count of `b`. -/
noncomputable def KTEstimator.update (e : KTEstimator) (b : Bool) : KTEstimator :=
  { c0 := if b then e.c0 else e.c0 + 1
    c1 := if b then e.c1 + 1 else e.c1
    logKt := e.logKt + Real.log (e.prob b) }

/-- `KTEstimator::logMarginal`. -/
noncomputable def KTEstimator.logMarginal (e : KTEstimator) : ℝ := e.logKt

/-- `KTEstimator::posterior`: the Beta sufficient statistics
`(1/2 + c₁, 1/2 + c₀)`. -/
noncomputable def KTEstimator.posterior (e : KTEstimator) : ℝ × ℝ :=
  (1 / 2 + (e.c1 : ℝ), 1 / 2 + (e.c0 : ℝ))

/-- Feed a finite bit sequence to a KT estimator, one `update` per bit. -/
noncomputable def KTEstimator.feed (e : KTEstimator) (l : List Bool) : KTEstimator :=
  l.foldl KTEstimator.update e

/-- The sum `Σ log p(bᵢ | past)` over a bit sequence, where
`p(b | past) = (c_b + 1/2) / (c₀ + c₁ + 1)` is evaluated with the counts
`c₀`, `c₁` of the bits strictly before `bᵢ`. -/
noncomputable def ktLogSum (c0 c1 : ℕ) : List Bool → ℝ
  | [] => 0
  | b :: rest =>
      Real.log (((if b then (c1 : ℝ) else (c0 : ℝ)) + 1 / 2) / (((c0 : ℝ) + (c1 : ℝ)) + 1)) +
        ktLogSum (if b then c0 else c0 + 1) (if b then c1 + 1 else c1) rest

lemma KTEstimator.feed_cons (e : KTEstimator) (b : Bool) (rest : List Bool) :
    e.feed (b :: rest) = (e.update b).feed rest := rfl

lemma KTEstimator.feed_c0 (e : KTEstimator) (l : List Bool) :
    (e.feed l).c0 = e.c0 + l.count false := by
  induction l generalizing e with
  | nil => simp [KTEstimator.feed]
  | cons b rest ih =>
      rw [KTEstimator.feed_cons, ih]
      cases b <;> simp [KTEstimator.update, List.count_cons] <;> omega

lemma KTEstimator.feed_c1 (e : KTEstimator) (l : List Bool) :
    (e.feed l).c1 = e.c1 + l.count true := by
  induction l generalizing e with
  | nil => simp [KTEstimator.feed]
  | cons b rest ih =>
      rw [KTEstimator.feed_cons, ih]
      cases b <;> simp [KTEstimator.update, List.count_cons] <;> omega

lemma KTEstimator.feed_logKt (e : KTEstimator) (l : List Bool) :
    (e.feed l).logKt = e.logKt + ktLogSum e.c0 e.c1 l := by
  induction l generalizing e with
  | nil => simp [KTEstimator.feed, ktLogSum]
  | cons b rest ih =>
      rw [KTEstimator.feed_cons, ih]
      cases b <;>
        simp [KTEstimator.update, KTEstimator.prob, ktLogSum] <;> ring

/-- C3: after feeding any finite bit sequence to a fresh KT estimator,
`logMarginal` equals the sum over the sequence of `log p(bᵢ | past)` with
`p(b | past) = (c_b + 1/2) / (c₀ + c₁ + 1)` evaluated with the counts as
they were before incorporating `bᵢ`, and `posterior` returns the pair
`(1/2 + c₁, 1/2 + c₀)` where `c₁`/`c₀` count the ones/zeros of the
sequence. -/
theorem kt_estimator_marginal_and_posterior (l : List Bool) :
    (KTEstimator.init.feed l).logMarginal = ktLogSum 0 0 l ∧
    (KTEstimator.init.feed l).posterior =
      (1 / 2 + (l.count true : ℝ), 1 / 2 + (l.count false : ℝ)) ∧
    (KTEstimator.init.feed l).c1 = l.count true ∧
    (KTEstimator.init.feed l).c0 = l.count false := by
  refine ⟨?_, ?_, ?_, ?_⟩
  · simpa [KTEstimator.logMarginal, KTEstimator.init] using
      KTEstimator.feed_logKt KTEstimator.init l
  · simp [KTEstimator.posterior, KTEstimator.feed_c0, KTEstimator.feed_c1, KTEstimator.init]
  · simpa [KTEstimator.init] using KTEstimator.feed_c1 KTEstimator.init l
  · simpa [KTEstimator.init] using KTEstimator.feed_c0 KTEstimator.init l

/-- One node of the Active PTW tree (`ActivePTWNode_t` from `ptw.hpp`):
one KT estimator per arm (modelled as a function from the arm index; only
indices below `arms` are ever read), the log-weighted value `wℓ` and the
log-buffer. -/
structure ActivePTWNode where
  model : ℕ → KTEstimator
  logWeighted : ℝ
  logBuf : ℝ

/-- A freshly constructed node: all KT counts zero, `wℓ = 0`, `buf = 0`. -/
def ActivePTWNode.fresh : ActivePTWNode :=
  ⟨fun _ => KTEstimator.init, 0, 0⟩

/-- `ActivePTWNode_t::logMarginal`: the sum of the per-arm KT log-marginals
over the `arms` estimators the node carries. -/
noncomputable def ActivePTWNode.logMarginal (n : ActivePTWNode) (arms : ℕ) : ℝ :=
  ∑ a ∈ Finset.range arms, (n.model a).logMarginal

/-- Update the KT estimator of arm `k` inside a node with reward bit `r`
(the `m_model[k].update(r)` step). -/
noncomputable def ActivePTWNode.updateArm (n : ActivePTWNode) (k : ℕ) (r : Bool) :
    ActivePTWNode :=
  { n with model := fun a => if a = k then (n.model k).update r else n.model a }

/-- The Active PTW model state (`ActivePTW` from `ptw.hpp`): depth, number
of arms, the 1-based-time counter `index`, and the `depth + 1` nodes
(modelled as a function; only indices `0..depth` are ever read). -/
structure ActivePTW where
  depth : ℕ
  arms : ℕ
  index : ℕ
  nodes : ℕ → ActivePTWNode

/-- The `ActivePTW` constructor: `index = 0` and `depth + 1` fresh nodes. -/
def ActivePTW.init (depth arms : ℕ) : ActivePTW :=
  ⟨depth, arms, 0, fun _ => ActivePTWNode.fresh⟩

/-- The stop weight `log ((arms - 1) / arms)` set up by the constructor. -/
noncomputable def LogStopWeight (arms : ℕ) : ℝ :=
  Real.log (((arms : ℝ) - 1) / (arms : ℝ))

/-- The split weight `log (1 - (arms - 1) / arms)` set up by the constructor. -/
noncomputable def LogSplitWeight (arms : ℕ) : ℝ :=
  Real.log (1 - ((arms : ℝ) - 1) / (arms : ℝ))

/-- `ActivePTW::mscb`: the number of bits to the left of the most
significant location at which `t-1` and `t-2` differ (scanning a
`depth`-bit window from the most significant bit down); `mscb 1 = 0`, and
if no scanned bit differs the loop returns `depth`. -/
def mscb (depth : ℕ) (t : ℕ) : ℕ :=
  if t = 1 then 0
  else
    match (List.range depth).find?
        (fun cnt => (t - 1).testBit (depth - 1 - cnt) != (t - 2).testBit (depth - 1 - cnt)) with
    | some cnt => cnt
    | none => depth

/-- Point update of the node array at one index. -/
def setNode (nodes : ℕ → ActivePTWNode) (i : ℕ) (n : ActivePTWNode) :
    ℕ → ActivePTWNode :=
  fun j => if j = i then n else nodes j

/-- The state of the node array after the first two steps of
`ActivePTW::update` with change point `i`: copy `n[i+1].wℓ` into
`n[i].buf`, then reset nodes `i+1 .. depth` to fresh nodes. -/
noncomputable def resetStage (s : ActivePTW) (i : ℕ) : ℕ → ActivePTWNode :=
  fun j =>
    if i + 1 ≤ j ∧ j ≤ s.depth then ActivePTWNode.fresh
    else setNode s.nodes i { s.nodes i with logBuf := (s.nodes (i + 1)).logWeighted } j

/-- The node array after additionally processing the bottom node
(level `depth`): update arm `k`'s KT estimator there and set its `wℓ` to
its log-marginal. -/
noncomputable def bottomStage (s : ActivePTW) (i : ℕ) (r : Bool) (k : ℕ) :
    ℕ → ActivePTWNode :=
  setNode (resetStage s i) s.depth
    { (resetStage s i s.depth).updateArm k r with
      logWeighted := ((resetStage s i s.depth).updateArm k r).logMarginal s.arms }

/-- One iteration of the bottom-up loop of `ActivePTW::update` at node
`idx`: update arm `k`'s KT estimator, then set
`wℓ = logAdd (LogStop + logMarginal, LogSplit + n[idx+1].wℓ + n[idx].buf)`. -/
noncomputable def sweepStep (arms : ℕ) (r : Bool) (k : ℕ)
    (nodes : ℕ → ActivePTWNode) (idx : ℕ) : ℕ → ActivePTWNode :=
  setNode nodes idx
    { (nodes idx).updateArm k r with
      logWeighted :=
        logAdd (LogStopWeight arms + ((nodes idx).updateArm k r).logMarginal arms)
          (LogSplitWeight arms + (nodes (idx + 1)).logWeighted
            + ((nodes idx).updateArm k r).logBuf) }

/-- The bottom-up loop `for i = 1 .. depth` of `ActivePTW::update`:
iteration `i` processes node `depth - i`. `sweep … m` is the node array
after `m` iterations. -/
noncomputable def sweep (arms : ℕ) (r : Bool) (k : ℕ) (depth : ℕ)
    (nodes : ℕ → ActivePTWNode) : ℕ → (ℕ → ActivePTWNode)
  | 0 => nodes
  | m + 1 => sweepStep arms r k (sweep arms r k depth nodes m) (depth - (m + 1))

/-- `ActivePTW::update`: compute the change point `i = mscb (index + 1)`,
copy the buffer and reset below `i`, process the bottom node, then run the
bottom-up weighted-probability loop; finally increment `index`. -/
noncomputable def ActivePTW.update (s : ActivePTW) (r : Bool) (k : ℕ) : ActivePTW :=
  { s with
    index := s.index + 1
    nodes :=
      sweep s.arms r k s.depth
        (bottomStage s (mscb s.depth (s.index + 1)) r k) s.depth }

/-- The loop body of `ActivePTW::levelPosterior`, processing levels
`i, i+1, …` for the given number of remaining steps, with the running
posterior mass (clamped at 0 after each level, as in the source). -/
noncomputable def lpGo (s : ActivePTW) : ℕ → ℕ → ℝ → List ℝ
  | _, 0, _ => []
  | i, steps + 1, mass =>
      mass * Real.exp (LogStopWeight s.arms + (s.nodes i).logMarginal s.arms
          - (s.nodes i).logWeighted) ::
        lpGo s (i + 1) steps
          (max (mass * (1 - Real.exp (LogStopWeight s.arms
            + (s.nodes i).logMarginal s.arms - (s.nodes i).logWeighted))) 0)

/-- `ActivePTW::levelPosterior`: the posterior over the `depth + 1`
segmentation levels, computed top-down from mass 1. -/
noncomputable def ActivePTW.levelPosterior (s : ActivePTW) : List ℝ :=
  lpGo s 0 (s.depth + 1) 1

/-- `ActivePTW::logMarginal`. -/
noncomputable def ActivePTW.logMarginal (s : ActivePTW) : ℝ :=
  (s.nodes 0).logWeighted

/-- `ActivePTW::posterior`: the Beta statistics of arm `arm` at `level`. -/
noncomputable def ActivePTW.posterior (s : ActivePTW) (level arm : ℕ) : ℝ × ℝ :=
  ((s.nodes level).model arm).posterior

lemma sweepStep_apply_ne (arms : ℕ) (r : Bool) (k : ℕ)
    (nodes : ℕ → ActivePTWNode) (idx j : ℕ) (h : j ≠ idx) :
    sweepStep arms r k nodes idx j = nodes j := by
  simp [sweepStep, setNode, h]

lemma sweep_apply_untouched (arms : ℕ) (r : Bool) (k : ℕ) (depth : ℕ)
    (nodes : ℕ → ActivePTWNode) :
    ∀ m j, m ≤ depth → (j < depth - m ∨ depth ≤ j) →
      sweep arms r k depth nodes m j = nodes j := by
  intro m
  induction m with
  | zero => intro j _ _; rfl
  | succ m ih =>
      intro j hm hj
      have hne : j ≠ depth - (m + 1) := by omega
      show sweepStep arms r k (sweep arms r k depth nodes m) (depth - (m + 1)) j = nodes j
      rw [sweepStep_apply_ne _ _ _ _ _ _ hne]
      exact ih j (by omega) (by omega)

lemma sweep_apply_stable (arms : ℕ) (r : Bool) (k : ℕ) (depth : ℕ)
    (nodes : ℕ → ActivePTWNode) :
    ∀ m m' j, m ≤ m' → m' ≤ depth → depth - m ≤ j →
      sweep arms r k depth nodes m' j = sweep arms r k depth nodes m j := by
  intro m m' j hmm'
  induction m' with
  | zero =>
      intro _ hj
      have : m = 0 := by omega
      rw [this]
  | succ m' ih =>
      intro hd hj
      rcases Nat.eq_or_lt_of_le hmm' with h | h
      · rw [h]
      · have hne : j ≠ depth - (m' + 1) := by omega
        show sweepStep arms r k (sweep arms r k depth nodes m') (depth - (m' + 1)) j = _
        rw [sweepStep_apply_ne _ _ _ _ _ _ hne]
        exact ih (by omega) (by omega) hj

lemma sweep_apply_final (arms : ℕ) (r : Bool) (k : ℕ) (depth : ℕ)
    (nodes : ℕ → ActivePTWNode) (j : ℕ) (hj : j < depth) :
    sweep arms r k depth nodes depth j
      = sweepStep arms r k (sweep arms r k depth nodes (depth - j - 1)) j j := by
  have h1 : sweep arms r k depth nodes depth j
      = sweep arms r k depth nodes (depth - j) j :=
    sweep_apply_stable arms r k depth nodes (depth - j) depth j
      (by omega) (le_refl depth) (by omega)
  have h2 : depth - j = (depth - j - 1) + 1 := by omega
  rw [h1, h2]
  show sweepStep arms r k (sweep arms r k depth nodes (depth - j - 1))
      (depth - ((depth - j - 1) + 1)) j = _
  have h3 : depth - ((depth - j - 1) + 1) = j := by omega
  rw [h3]
  simp

lemma mscb_lt_depth (depth t : ℕ) (hD : 1 ≤ depth) (ht : 1 ≤ t) :
    mscb depth t < depth := by
  unfold mscb
  by_cases h1 : t = 1
  · simp only [if_pos h1]
    omega
  · simp only [if_neg h1]
    have ht2 : 2 ≤ t := by omega
    have hpred : ((t - 1).testBit (depth - 1 - (depth - 1))
          != (t - 2).testBit (depth - 1 - (depth - 1))) = true := by
        have h0 : depth - 1 - (depth - 1) = 0 := by omega
        rw [h0, Nat.testBit_zero, Nat.testBit_zero]
        simp only [bne_iff_ne, ne_eq, decide_eq_decide]
        omega
    cases hfind : (List.range depth).find?
          (fun cnt => (t - 1).testBit (depth - 1 - cnt) != (t - 2).testBit (depth - 1 - cnt)) with
      | none =>
          exfalso
          have hmem : depth - 1 ∈ List.range depth := by
            simp only [List.mem_range]; omega
          have := List.find?_eq_none.mp hfind _ hmem
          exact this hpred
      | some cnt =>
          have := List.mem_of_find?_eq_some hfind
          simpa [List.mem_range] using this

lemma sweepStep_apply_self (arms : ℕ) (r : Bool) (k : ℕ)
    (nodes : ℕ → ActivePTWNode) (idx : ℕ) :
    sweepStep arms r k nodes idx idx
      = { (nodes idx).updateArm k r with
          logWeighted :=
            logAdd (LogStopWeight arms + ((nodes idx).updateArm k r).logMarginal arms)
              (LogSplitWeight arms + (nodes (idx + 1)).logWeighted
                + ((nodes idx).updateArm k r).logBuf) } := by
  simp [sweepStep, setNode]

lemma resetStage_apply_i (s : ActivePTW) (i : ℕ) :
    resetStage s i i = { s.nodes i with logBuf := (s.nodes (i + 1)).logWeighted } := by
  have h1 : ¬ (i + 1 ≤ i ∧ i ≤ s.depth) := by omega
  simp [resetStage, setNode, h1]

lemma resetStage_apply_fresh (s : ActivePTW) (i j : ℕ) (h1 : i + 1 ≤ j) (h2 : j ≤ s.depth) :
    resetStage s i j = ActivePTWNode.fresh := by
  simp [resetStage, h1, h2]

lemma resetStage_apply_low (s : ActivePTW) (i j : ℕ) (h : j < i) :
    resetStage s i j = s.nodes j := by
  have h1 : ¬ (i + 1 ≤ j ∧ j ≤ s.depth) := by omega
  have h2 : j ≠ i := by omega
  simp [resetStage, setNode, h1, h2]

lemma resetStage_model (s : ActivePTW) (i j : ℕ) (hj : j ≤ s.depth) :
    (resetStage s i j).model
      = (if j ≤ i then s.nodes j else ActivePTWNode.fresh).model := by
  rcases Nat.lt_or_ge i j with h | h
  · rw [resetStage_apply_fresh s i j (by omega) hj]
    have : ¬ j ≤ i := by omega
    rw [if_neg this]
  · rcases Nat.eq_or_lt_of_le h with h' | h'
    · subst h'
      rw [resetStage_apply_i, if_pos (le_refl j)]
    · rw [resetStage_apply_low s i j h', if_pos (by omega)]

lemma bottomStage_apply_ne (s : ActivePTW) (i : ℕ) (r : Bool) (k j : ℕ)
    (h : j ≠ s.depth) :
    bottomStage s i r k j = resetStage s i j := by
  simp [bottomStage, setNode, h]

lemma bottomStage_apply_depth (s : ActivePTW) (i : ℕ) (r : Bool) (k : ℕ) :
    bottomStage s i r k s.depth
      = { (resetStage s i s.depth).updateArm k r with
          logWeighted := ((resetStage s i s.depth).updateArm k r).logMarginal s.arms } := by
  simp [bottomStage, setNode]

lemma update_nodes_def (s : ActivePTW) (r : Bool) (k : ℕ) :
    (s.update r k).nodes
      = sweep s.arms r k s.depth (bottomStage s (mscb s.depth (s.index + 1)) r k) s.depth :=
  rfl

lemma update_nodes_depth (s : ActivePTW) (r : Bool) (k : ℕ) :
    (s.update r k).nodes s.depth = bottomStage s (mscb s.depth (s.index + 1)) r k s.depth := by
  rw [update_nodes_def]
  exact sweep_apply_untouched _ _ _ _ _ s.depth s.depth (le_refl _) (Or.inr (le_refl _))

lemma update_nodes_lt (s : ActivePTW) (r : Bool) (k : ℕ) (j : ℕ) (hj : j < s.depth) :
    (s.update r k).nodes j
      = { (bottomStage s (mscb s.depth (s.index + 1)) r k j).updateArm k r with
          logWeighted :=
            logAdd (LogStopWeight s.arms
                + ((bottomStage s (mscb s.depth (s.index + 1)) r k j).updateArm k r).logMarginal
                    s.arms)
              (LogSplitWeight s.arms + ((s.update r k).nodes (j + 1)).logWeighted
                + ((bottomStage s (mscb s.depth (s.index + 1)) r k j).updateArm k
                    r).logBuf) } := by
  have hfin := sweep_apply_final s.arms r k s.depth
    (bottomStage s (mscb s.depth (s.index + 1)) r k) j hj
  have hBj : sweep s.arms r k s.depth (bottomStage s (mscb s.depth (s.index + 1)) r k)
      (s.depth - j - 1) j = bottomStage s (mscb s.depth (s.index + 1)) r k j :=
    sweep_apply_untouched _ _ _ _ _ _ j (by omega) (by omega)
  have hBj1 : sweep s.arms r k s.depth (bottomStage s (mscb s.depth (s.index + 1)) r k)
      (s.depth - j - 1) (j + 1)
      = sweep s.arms r k s.depth (bottomStage s (mscb s.depth (s.index + 1)) r k)
          s.depth (j + 1) := by
    rcases Nat.lt_or_ge (j + 1) s.depth with h | h
    · exact (sweep_apply_stable _ _ _ _ _ (s.depth - j - 1) s.depth (j + 1)
        (by omega) (le_refl _) (by omega)).symm
    · rw [sweep_apply_untouched _ _ _ _ _ _ (j + 1) (by omega) (by omega),
        sweep_apply_untouched _ _ _ _ _ _ (j + 1) (le_refl _) (by omega)]
  rw [update_nodes_def, hfin, sweepStep_apply_self, hBj, hBj1, ← update_nodes_def]

lemma updateArm_model_self (n : ActivePTWNode) (k : ℕ) (r : Bool) :
    (n.updateArm k r).model k = (n.model k).update r := by
  simp [ActivePTWNode.updateArm]

lemma updateArm_model_ne (n : ActivePTWNode) (k : ℕ) (r : Bool) (a : ℕ) (h : a ≠ k) :
    (n.updateArm k r).model a = n.model a := by
  simp [ActivePTWNode.updateArm, h]

lemma update_index (s : ActivePTW) (r : Bool) (k : ℕ) :
    (s.update r k).index = s.index + 1 := rfl

lemma update_depth (s : ActivePTW) (r : Bool) (k : ℕ) :
    (s.update r k).depth = s.depth := rfl

lemma update_arms (s : ActivePTW) (r : Bool) (k : ℕ) :
    (s.update r k).arms = s.arms := rfl

lemma update_nodes_lt_logBuf (s : ActivePTW) (r : Bool) (k j : ℕ) (hj : j < s.depth) :
    ((s.update r k).nodes j).logBuf
      = (bottomStage s (mscb s.depth (s.index + 1)) r k j).logBuf := by
  rw [update_nodes_lt s r k j hj]
  rfl

lemma update_nodes_lt_model (s : ActivePTW) (r : Bool) (k j : ℕ) (hj : j < s.depth) :
    ((s.update r k).nodes j).model
      = ((bottomStage s (mscb s.depth (s.index + 1)) r k j).updateArm k r).model := by
  rw [update_nodes_lt s r k j hj]

lemma bottomStage_model (s : ActivePTW) (i : ℕ) (r : Bool) (k : ℕ) :
    (bottomStage s i r k s.depth).model
      = ((resetStage s i s.depth).updateArm k r).model := by
  rw [bottomStage_apply_depth]

lemma update_buf_copy (s : ActivePTW) (r : Bool) (k : ℕ) (hD : 1 ≤ s.depth) :
    ((s.update r k).nodes (mscb s.depth (s.index + 1))).logBuf
      = (s.nodes (mscb s.depth (s.index + 1) + 1)).logWeighted := by
  have hi : mscb s.depth (s.index + 1) < s.depth :=
    mscb_lt_depth s.depth (s.index + 1) hD (by omega)
  rw [update_nodes_lt_logBuf s r k _ hi,
    bottomStage_apply_ne s _ r k _ (by omega), resetStage_apply_i]

lemma update_bottom_weighted (s : ActivePTW) (r : Bool) (k : ℕ) :
    ((s.update r k).nodes s.depth).logWeighted
      = ((s.update r k).nodes s.depth).logMarginal s.arms := by
  rw [update_nodes_depth, bottomStage_apply_depth]
  rfl

lemma update_weighted_rec (s : ActivePTW) (r : Bool) (k : ℕ) (j : ℕ) (hj : j < s.depth) :
    ((s.update r k).nodes j).logWeighted
      = logAdd (LogStopWeight s.arms + ((s.update r k).nodes j).logMarginal s.arms)
          (LogSplitWeight s.arms + ((s.update r k).nodes (j + 1)).logWeighted
            + ((s.update r k).nodes j).logBuf) := by
  rw [update_nodes_lt s r k j hj]
  rfl

lemma update_model_spec (s : ActivePTW) (r : Bool) (k : ℕ) (hD : 1 ≤ s.depth) :
    ∀ j ≤ s.depth,
      ((s.update r k).nodes j).model k
          = ((if j ≤ mscb s.depth (s.index + 1) then s.nodes j
              else ActivePTWNode.fresh).model k).update r ∧
      ∀ a, a ≠ k →
        ((s.update r k).nodes j).model a
          = (if j ≤ mscb s.depth (s.index + 1) then s.nodes j
             else ActivePTWNode.fresh).model a := by
  have hi : mscb s.depth (s.index + 1) < s.depth :=
    mscb_lt_depth s.depth (s.index + 1) hD (by omega)
  intro j hj
  rcases Nat.lt_or_ge j s.depth with hlt | hge
  · have hm : (bottomStage s (mscb s.depth (s.index + 1)) r k j).model
        = (if j ≤ mscb s.depth (s.index + 1) then s.nodes j
           else ActivePTWNode.fresh).model := by
      rw [bottomStage_apply_ne s _ r k j (by omega)]
      exact resetStage_model s _ j (by omega)
    constructor
    · rw [update_nodes_lt_model s r k j hlt, updateArm_model_self, hm]
    · intro a ha
      rw [update_nodes_lt_model s r k j hlt, updateArm_model_ne _ _ _ _ ha, hm]
  · have hjd : j = s.depth := by omega
    subst hjd
    have hni : ¬ s.depth ≤ mscb s.depth (s.index + 1) := by omega
    constructor
    · rw [update_nodes_depth, bottomStage_model, updateArm_model_self,
        resetStage_apply_fresh s _ s.depth (by omega) (le_refl _), if_neg hni]
    · intro a ha
      rw [update_nodes_depth, bottomStage_model, updateArm_model_ne _ _ _ _ ha,
        resetStage_apply_fresh s _ s.depth (by omega) (le_refl _), if_neg hni]

/-- C1: for every step `t = index + 1` with `t ≤ 2 ^ depth` (and `depth ≥ 1`,
as required for the node accesses of the source to be in range),
`ActivePTW::update r k` performs exactly the specified algorithm: with
`i = mscb t` (and `mscb 1 = 0`), it copies `n[i+1].wℓ` into `n[i].buf`,
resets nodes `i+1..D` to fresh nodes, updates arm `k`'s KT estimator at
every level (and no other arm), and afterwards `n[D].wℓ = n[D].logMarginal`
and for every level `j < D`,
`n[j].wℓ = logAdd (LogStop + n[j].logMarginal, LogSplit + n[j+1].wℓ + n[j].buf)`. -/
theorem active_ptw_update_algorithm (s : ActivePTW) (r : Bool) (k : ℕ)
    (hD : 1 ≤ s.depth) (ht : s.index + 1 ≤ 2 ^ s.depth) :
    (s.update r k).index = s.index + 1 ∧
    mscb s.depth 1 = 0 ∧
    ((s.update r k).nodes (mscb s.depth (s.index + 1))).logBuf
        = (s.nodes (mscb s.depth (s.index + 1) + 1)).logWeighted ∧
    (∀ j ≤ s.depth,
      ((s.update r k).nodes j).model k
          = ((if j ≤ mscb s.depth (s.index + 1) then s.nodes j
              else ActivePTWNode.fresh).model k).update r ∧
      ∀ a, a ≠ k →
        ((s.update r k).nodes j).model a
          = (if j ≤ mscb s.depth (s.index + 1) then s.nodes j
             else ActivePTWNode.fresh).model a) ∧
    ((s.update r k).nodes s.depth).logWeighted
        = ((s.update r k).nodes s.depth).logMarginal s.arms ∧
    ∀ j < s.depth,
      ((s.update r k).nodes j).logWeighted
        = logAdd (LogStopWeight s.arms + ((s.update r k).nodes j).logMarginal s.arms)
            (LogSplitWeight s.arms + ((s.update r k).nodes (j + 1)).logWeighted
              + ((s.update r k).nodes j).logBuf) :=
  ⟨update_index s r k, by simp [mscb], update_buf_copy s r k hD,
    update_model_spec s r k hD, update_bottom_weighted s r k,
    fun j hj => update_weighted_rec s r k j hj⟩

/-- Witness for C1 at a concrete input: the fresh depth-1, 2-arm model at
its first step. -/
theorem active_ptw_update_algorithm_witness :
    1 ≤ (ActivePTW.init 1 2).depth ∧
    (ActivePTW.init 1 2).index + 1 ≤ 2 ^ (ActivePTW.init 1 2).depth ∧
    ((ActivePTW.init 1 2).update true 0).index = (ActivePTW.init 1 2).index + 1 :=
  ⟨by decide, by decide,
    (active_ptw_update_algorithm (ActivePTW.init 1 2) true 0 (by decide) (by decide)).1⟩

/-- States of an Active PTW model reachable from the constructor by a
sequence of `update` calls with valid arm indices. -/
inductive Reachable (depth arms : ℕ) : ActivePTW → Prop where
  | init : Reachable depth arms (ActivePTW.init depth arms)
  | step (s : ActivePTW) (r : Bool) (k : ℕ) (hk : k < arms) :
      Reachable depth arms s → Reachable depth arms (s.update r k)

lemma reachable_depth (depth arms : ℕ) (s : ActivePTW) (h : Reachable depth arms s) :
    s.depth = depth := by
  induction h with
  | init => rfl
  | step s r k hk hs ih => rw [update_depth, ih]

lemma reachable_arms (depth arms : ℕ) (s : ActivePTW) (h : Reachable depth arms s) :
    s.arms = arms := by
  induction h with
  | init => rfl
  | step s r k hk hs ih => rw [update_arms, ih]

/-- The key numeric invariant behind the level-posterior assertions: at
every level the stop branch `LogStop + logMarginal` never exceeds the
weighted value `wℓ`. -/
def GoodPTW (s : ActivePTW) : Prop :=
  ∀ i ≤ s.depth,
    LogStopWeight s.arms + (s.nodes i).logMarginal s.arms ≤ (s.nodes i).logWeighted

lemma logStopWeight_nonpos (arms : ℕ) : LogStopWeight arms ≤ 0 := by
  unfold LogStopWeight
  rcases Nat.eq_zero_or_pos arms with h | h
  · simp [h]
  · apply Real.log_nonpos
    · apply div_nonneg
      · have : (1 : ℝ) ≤ (arms : ℝ) := by exact_mod_cast h
        linarith
      · positivity
    · rw [div_le_one (by positivity)]
      linarith

lemma good_init (depth arms : ℕ) : GoodPTW (ActivePTW.init depth arms) := by
  intro i _
  have hm : (ActivePTWNode.fresh.logMarginal arms) = 0 := by
    simp [ActivePTWNode.logMarginal, ActivePTWNode.fresh, KTEstimator.logMarginal,
      KTEstimator.init]
  show LogStopWeight arms + ActivePTWNode.fresh.logMarginal arms
      ≤ ActivePTWNode.fresh.logWeighted
  rw [hm]
  have := logStopWeight_nonpos arms
  simp [ActivePTWNode.fresh]
  linarith

lemma good_update (s : ActivePTW) (r : Bool) (k : ℕ) : GoodPTW (s.update r k) := by
  intro i hi
  rw [update_depth] at hi
  show LogStopWeight s.arms + ((s.update r k).nodes i).logMarginal s.arms
      ≤ ((s.update r k).nodes i).logWeighted
  rcases Nat.lt_or_ge i s.depth with h | h
  · rw [update_weighted_rec s r k i h]
    exact le_logAdd_left _ _
  · have hid : i = s.depth := by omega
    rw [hid, update_bottom_weighted]
    have := logStopWeight_nonpos s.arms
    linarith

lemma reachable_good (depth arms : ℕ) (s : ActivePTW) (h : Reachable depth arms s) :
    GoodPTW s := by
  induction h with
  | init => exact good_init depth arms
  | step s r k hk hs ih => exact good_update s r k

lemma lpGo_length (s : ActivePTW) :
    ∀ steps i mass, (lpGo s i steps mass).length = steps := by
  intro steps
  induction steps with
  | zero => intro i mass; rfl
  | succ n ih => intro i mass; simp [lpGo, ih]

lemma good_stop_le_one (s : ActivePTW) (hg : GoodPTW s) (i : ℕ) (hi : i ≤ s.depth) :
    Real.exp (LogStopWeight s.arms + (s.nodes i).logMarginal s.arms
      - (s.nodes i).logWeighted) ≤ 1 := by
  rw [Real.exp_le_one_iff]
  have := hg i hi
  linarith

lemma lpGo_mem_bounds (s : ActivePTW) (hg : GoodPTW s) :
    ∀ steps i mass, 0 ≤ mass → mass ≤ 1 → i + steps ≤ s.depth + 1 →
      ∀ x ∈ lpGo s i steps mass, 0 ≤ x ∧ x ≤ 1 := by
  intro steps
  induction steps with
  | zero => intro i mass _ _ _ x hx; simp [lpGo] at hx
  | succ n ih =>
      intro i mass hm0 hm1 hle x hx
      have hi : i ≤ s.depth := by omega
      set stop := Real.exp (LogStopWeight s.arms + (s.nodes i).logMarginal s.arms
        - (s.nodes i).logWeighted) with hstop
      have hstop0 : 0 ≤ stop := le_of_lt (Real.exp_pos _)
      have hstop1 : stop ≤ 1 := good_stop_le_one s hg i hi
      simp only [lpGo, List.mem_cons] at hx
      rcases hx with hx | hx
      · subst hx
        constructor
        · exact mul_nonneg hm0 hstop0
        · nlinarith
      · refine ih (i + 1) _ (le_max_right _ _) ?_ (by omega) x hx
        apply max_le _ (by norm_num)
        nlinarith

lemma lpGo_sum_le (s : ActivePTW) (hg : GoodPTW s) :
    ∀ steps i mass, 0 ≤ mass → i + steps ≤ s.depth + 1 →
      (lpGo s i steps mass).sum ≤ mass := by
  intro steps
  induction steps with
  | zero => intro i mass hm _; simp [lpGo, hm]
  | succ n ih =>
      intro i mass hm0 hle
      have hi : i ≤ s.depth := by omega
      set stop := Real.exp (LogStopWeight s.arms + (s.nodes i).logMarginal s.arms
        - (s.nodes i).logWeighted) with hstop
      have hstop0 : 0 ≤ stop := le_of_lt (Real.exp_pos _)
      have hstop1 : stop ≤ 1 := good_stop_le_one s hg i hi
      have hmax : max (mass * (1 - stop)) 0 = mass * (1 - stop) :=
        max_eq_left (mul_nonneg hm0 (by linarith))
      have htail : (lpGo s (i + 1) n (max (mass * (1 - stop)) 0)).sum
          ≤ max (mass * (1 - stop)) 0 :=
        ih (i + 1) _ (le_max_right _ _) (by omega)
      simp only [lpGo, List.sum_cons]
      rw [hmax] at htail
      have : mass * stop + mass * (1 - stop) = mass := by ring
      calc mass * stop + (lpGo s (i + 1) n (max (mass * (1 - stop)) 0)).sum
          ≤ mass * stop + mass * (1 - stop) := by rw [hmax] at *; linarith
        _ = mass := by ring

/-- C2: after any sequence of updates to an `ActivePTW` model (constructed
with the source's valid parameter range, `depth ≥ 1` and `arms ≥ 2`),
`levelPosterior` returns a vector of `depth + 1` entries, each lying in
`[0, 1]` (the per-entry assertion of the source), whose sum is at most 1. -/
theorem active_ptw_level_posterior_valid (depth arms : ℕ) (s : ActivePTW)
    (hD : 1 ≤ depth) (hK : 2 ≤ arms) (h : Reachable depth arms s) :
    s.levelPosterior.length = s.depth + 1 ∧
    (∀ x ∈ s.levelPosterior, 0 ≤ x ∧ x ≤ 1) ∧
    s.levelPosterior.sum ≤ 1 := by
  have hg : GoodPTW s := reachable_good depth arms s h
  refine ⟨lpGo_length s _ _ _, ?_, ?_⟩
  · exact lpGo_mem_bounds s hg (s.depth + 1) 0 1 (by norm_num) (le_refl 1) (by omega)
  · exact lpGo_sum_le s hg (s.depth + 1) 0 1 (by norm_num) (by omega)

/-- Witness for C2: the freshly constructed depth-1, 2-arm model after one
update. -/
theorem active_ptw_level_posterior_valid_witness :
    ((ActivePTW.init 1 2).update true 0).levelPosterior.length
      = ((ActivePTW.init 1 2).update true 0).depth + 1 :=
  (active_ptw_level_posterior_valid 1 2 ((ActivePTW.init 1 2).update true 0)
    (by decide) (by decide)
    (Reachable.step _ true 0 (by decide) Reachable.init)).1

/-- `ParanoidPTWBanditStrategy::exploreProb`: the forced-exploration rate
for a sampled log2 segment size `k`, namely
`min (1, C · 2^(−k) · (2^(k/2) − k·log 2))` with `C = 1`; the source
applies no explicit lower clamp before asserting `prob ≥ 0`. -/
noncomputable def exploreProb (k : ℕ) : ℝ :=
  min 1 ((2 : ℝ) ^ (-(k : ℝ)) * ((2 : ℝ) ^ ((k : ℝ) / 2) - (k : ℝ) * Real.log 2))

lemma sqrt_two_ge_14 : (1.4 : ℝ) ≤ Real.sqrt 2 := by
  have h14 : (1.4 : ℝ) = Real.sqrt 1.96 := by
    rw [show (1.96 : ℝ) = 1.4 ^ 2 by norm_num, Real.sqrt_sq (by norm_num)]
  rw [h14]
  exact Real.sqrt_le_sqrt (by norm_num)

lemma klog2_le_sqrt_two_pow (k : ℕ) : (k : ℝ) * Real.log 2 ≤ Real.sqrt 2 ^ k := by
  have hs := sqrt_two_ge_14
  have hlog : Real.log 2 < 0.6931471808 := Real.log_two_lt_d9
  have hlogpos : 0 < Real.log 2 := Real.log_pos (by norm_num)
  have hsq : Real.sqrt 2 ^ 2 = 2 := Real.sq_sqrt (by norm_num)
  have hsqnn : 0 ≤ Real.sqrt 2 := Real.sqrt_nonneg 2
  have main : ∀ n : ℕ, ((n + 3 : ℕ) : ℝ) * Real.log 2 ≤ Real.sqrt 2 ^ (n + 3) := by
    intro n
    induction n with
    | zero =>
        have h3 : Real.sqrt 2 ^ (0 + 3) = 2 * Real.sqrt 2 := by
          rw [show 0 + 3 = 2 + 1 from rfl, pow_succ, hsq]
        rw [h3]
        push_cast
        nlinarith
    | succ m ih =>
        have hpow : Real.sqrt 2 ^ (m + 1 + 3) = Real.sqrt 2 ^ (m + 3) * Real.sqrt 2 := by
          rw [show m + 1 + 3 = (m + 3) + 1 from rfl, pow_succ]
        have hc : ((m + 1 + 3 : ℕ) : ℝ) = ((m + 3 : ℕ) : ℝ) + 1 := by push_cast; ring
        have hm3 : (3 : ℝ) ≤ ((m + 3 : ℕ) : ℝ) := by
          push_cast
          linarith [(Nat.cast_nonneg m : (0 : ℝ) ≤ (m : ℝ))]
        have hx2 : ((m + 3 : ℕ) : ℝ) + 1 ≤ ((m + 3 : ℕ) : ℝ) * Real.sqrt 2 := by
          have h1 : ((m + 3 : ℕ) : ℝ) * 1.4 ≤ ((m + 3 : ℕ) : ℝ) * Real.sqrt 2 :=
            mul_le_mul_of_nonneg_left hs (by linarith)
          linarith
        have hstep : ((m + 1 + 3 : ℕ) : ℝ) * Real.log 2
            ≤ (((m + 3 : ℕ) : ℝ) * Real.log 2) * Real.sqrt 2 := by
          rw [hc]
          calc (((m + 3 : ℕ) : ℝ) + 1) * Real.log 2
              ≤ (((m + 3 : ℕ) : ℝ) * Real.sqrt 2) * Real.log 2 :=
                mul_le_mul_of_nonneg_right hx2 hlogpos.le
            _ = (((m + 3 : ℕ) : ℝ) * Real.log 2) * Real.sqrt 2 := by ring
        calc ((m + 1 + 3 : ℕ) : ℝ) * Real.log 2
            ≤ (((m + 3 : ℕ) : ℝ) * Real.log 2) * Real.sqrt 2 := hstep
          _ ≤ Real.sqrt 2 ^ (m + 3) * Real.sqrt 2 := mul_le_mul_of_nonneg_right ih hsqnn
          _ = Real.sqrt 2 ^ (m + 1 + 3) := hpow.symm
  rcases Nat.lt_or_ge k 3 with hk | hk
  · interval_cases k
    · norm_num
    · norm_num
      linarith
    · norm_num [hsq]
      nlinarith
  · have hk3 : k = (k - 3) + 3 := by omega
    rw [hk3]
    exact main (k - 3)

lemma rpow_half_eq_sqrt_pow (k : ℕ) : (2 : ℝ) ^ ((k : ℝ) / 2) = Real.sqrt 2 ^ k := by
  rw [Real.sqrt_eq_rpow]
  rw [← Real.rpow_natCast ((2 : ℝ) ^ ((1 : ℝ) / 2)) k, ← Real.rpow_mul (by norm_num)]
  congr 1
  ring

/-- C8: for every natural `k`, `exploreProb k` equals
`min (1, 2^(−k)·(2^(k/2) − k·log 2))` clamped at 0 from below (the clamp
is a no-op because the inner expression is never negative), and the
returned value lies in `[0, 1]`, so the source's assertion `prob ≥ 0`
holds even though the code applies no explicit `max (0, ·)`. -/
theorem paranoid_explore_prob_formula (k : ℕ) :
    exploreProb k
      = max 0 (min 1 ((2 : ℝ) ^ (-(k : ℝ)) * ((2 : ℝ) ^ ((k : ℝ) / 2) - (k : ℝ) * Real.log 2))) ∧
    0 ≤ exploreProb k ∧ exploreProb k ≤ 1 := by
  have hpos : (0 : ℝ) < (2 : ℝ) ^ (-(k : ℝ)) := Real.rpow_pos_of_pos (by norm_num) _
  have hker : 0 ≤ (2 : ℝ) ^ ((k : ℝ) / 2) - (k : ℝ) * Real.log 2 := by
    rw [rpow_half_eq_sqrt_pow]
    exact sub_nonneg.mpr (klog2_le_sqrt_two_pow k)
  have hf : 0 ≤ (2 : ℝ) ^ (-(k : ℝ)) * ((2 : ℝ) ^ ((k : ℝ) / 2) - (k : ℝ) * Real.log 2) :=
    mul_nonneg hpos.le hker
  have hmin : 0 ≤ min 1 ((2 : ℝ) ^ (-(k : ℝ)) * ((2 : ℝ) ^ ((k : ℝ) / 2) - (k : ℝ) * Real.log 2)) :=
    le_min (by norm_num) hf
  exact ⟨(max_eq_right hmin).symm, hmin, min_le_left _ _⟩

/-- `ActivePTWBanditStrategy`'s constructor always builds its `ActivePTW`
model with fixed depth 30, whatever the number of arms or trials. -/
noncomputable def activePTWStrategyModel (arms : ℕ) : ActivePTW :=
  ActivePTW.init 30 arms

/-- `ParanoidPTWBanditStrategy` wraps an `ActivePTWBanditStrategy`, so its
model is the same depth-30 model. -/
noncomputable def paranoidPTWStrategyModel (arms : ℕ) : ActivePTW :=
  activePTWStrategyModel arms

/-- The assertion checked on entry to `ActivePTW::update`:
`index < 2^depth`. -/
def updateAssertOK (s : ActivePTW) : Prop :=
  s.index < 2 ^ s.depth

/-- The model held by an `ActivePTWBanditStrategy` after `n` policy
updates with an arbitrary reward/arm stream. -/
noncomputable def aptwRun (arms : ℕ) (stream : ℕ → Bool × ℕ) : ℕ → ActivePTW
  | 0 => activePTWStrategyModel arms
  | n + 1 => (aptwRun arms stream n).update (stream n).1 (stream n).2

lemma aptwRun_depth (arms : ℕ) (stream : ℕ → Bool × ℕ) (n : ℕ) :
    (aptwRun arms stream n).depth = 30 := by
  induction n with
  | zero => rfl
  | succ n ih => rw [aptwRun, update_depth, ih]

lemma aptwRun_index (arms : ℕ) (stream : ℕ → Bool × ℕ) (n : ℕ) :
    (aptwRun arms stream n).index = n := by
  induction n with
  | zero => rfl
  | succ n ih => rw [aptwRun, update_index, ih]

/-- C10: the Active-PTW policy (and the paranoid policy wrapping it)
constructs its model with fixed depth 30 regardless of configuration; the
`index < 2^depth` assertion of `ActivePTW::update` therefore holds on the
`(n+1)`-st update exactly when `n < 2^30`, so every run of at most `2^30`
updates keeps the assertion valid, and the policy cannot absorb more than
`2^30` observations. -/
theorem active_ptw_strategy_depth_bound (arms : ℕ) (stream : ℕ → Bool × ℕ) (n : ℕ) :
    (activePTWStrategyModel arms).depth = 30 ∧
    (paranoidPTWStrategyModel arms).depth = 30 ∧
    (aptwRun arms stream n).index = n ∧
    (updateAssertOK (aptwRun arms stream n) ↔ n < 2 ^ 30) := by
  refine ⟨rfl, rfl, aptwRun_index arms stream n, ?_⟩
  unfold updateAssertOK
  rw [aptwRun_index, aptwRun_depth]

/-- The claimed case enumeration for `bernoulliRelEntropy`, exactly as
stated: inputs outside `[0,1]` give NaN; `(0,0)` and `(1,1)` give 0;
`p = 0` with `q ∈ (0,1)` gives `−log (1−q)`; `p = 1` with `q ∈ (0,1)`
gives `−log q`; `q ∈ {0,1}` with `p` strictly inside `(0,1)` gives `+∞`;
otherwise the value is the finite generic formula. -/
noncomputable def klClaimSpec (p q : ℝ) : KLResult :=
  if p < 0 ∨ q < 0 ∨ 1 < p ∨ 1 < q then KLResult.nan
  else if (p = 0 ∧ q = 0) ∨ (p = 1 ∧ q = 1) then KLResult.fin 0
  else if p = 0 ∧ 0 < q ∧ q < 1 then KLResult.fin (-Real.log (1 - q))
  else if p = 1 ∧ 0 < q ∧ q < 1 then KLResult.fin (-Real.log q)
  else if (q = 0 ∨ q = 1) ∧ 0 < p ∧ p < 1 then KLResult.inf
  else KLResult.fin (p * Real.log (p / q) + (1 - p) * Real.log ((1 - p) / (1 - q)))

/-- The amended case enumeration: identical to the claimed one except that
the two corner inputs `(0,1)` and `(1,0)`, which the claimed cases leave
to the generic finite formula, give `+∞` (matching the IEEE `-log 0` the
code computes there). -/
noncomputable def klAmendedSpec (p q : ℝ) : KLResult :=
  if p < 0 ∨ q < 0 ∨ 1 < p ∨ 1 < q then KLResult.nan
  else if (p = 0 ∧ q = 0) ∨ (p = 1 ∧ q = 1) then KLResult.fin 0
  else if p = 0 ∧ 0 < q ∧ q < 1 then KLResult.fin (-Real.log (1 - q))
  else if p = 1 ∧ 0 < q ∧ q < 1 then KLResult.fin (-Real.log q)
  else if (q = 0 ∨ q = 1) ∧ 0 < p ∧ p < 1 then KLResult.inf
  else if (p = 0 ∧ q = 1) ∨ (p = 1 ∧ q = 0) then KLResult.inf
  else KLResult.fin (p * Real.log (p / q) + (1 - p) * Real.log ((1 - p) / (1 - q)))

/-- Counterexample for C9 at the concrete input `(p, q) = (0, 1)`: the code
returns `+∞` (it computes `-log (1 - 1) = -log 0`), while the claimed
enumeration assigns this input to its final "otherwise" case, a finite
value of the generic formula. -/
theorem bernoulli_rel_entropy_counterexample :
    bernoulliRelEntropy 0 1 = KLResult.inf ∧
    klClaimSpec 0 1
      = KLResult.fin (0 * Real.log (0 / 1) + (1 - 0) * Real.log ((1 - 0) / (1 - 1))) ∧
    bernoulliRelEntropy 0 1 ≠ klClaimSpec 0 1 := by
  have h1 : bernoulliRelEntropy 0 1 = KLResult.inf := by
    norm_num [bernoulliRelEntropy, negLogIEEE]
  have h2 : klClaimSpec 0 1
      = KLResult.fin (0 * Real.log (0 / 1) + (1 - 0) * Real.log ((1 - 0) / (1 - 1))) := by
    norm_num [klClaimSpec]
  refine ⟨h1, h2, ?_⟩
  rw [h1, h2]
  simp

/-- C9 (amended): `bernoulliRelEntropy` realizes the claimed enumeration
on every input, with the two corner cases `(0,1)` and `(1,0)` amended to
`+∞`. -/
theorem bernoulli_rel_entropy_cases (p q : ℝ) :
    bernoulliRelEntropy p q = klAmendedSpec p q := by
  unfold bernoulliRelEntropy klAmendedSpec negLogIEEE
  by_cases hrange : p < 0 ∨ q < 0 ∨ 1 < p ∨ 1 < q
  · simp only [if_pos hrange]
  · simp only [if_neg hrange]
    push_neg at hrange
    obtain ⟨hp0, hq0, hp1, hq1⟩ := hrange
    by_cases hpz : p = 0
    · subst hpz
      by_cases hqz : q = 0
      · subst hqz
        norm_num
      · by_cases hqo : q = 1
        · subst hqo
          norm_num
        · have h0q : 0 < q := lt_of_le_of_ne hq0 (Ne.symm hqz)
          have hq1' : q < 1 := lt_of_le_of_ne hq1 hqo
          have h1q : 1 - q ≠ 0 := by intro h; apply hqo; linarith
          norm_num [hqz, hqo, h0q, hq1', h1q]
    · by_cases hpo : p = 1
      · subst hpo
        by_cases hqo : q = 1
        · subst hqo
          norm_num
        · by_cases hqz : q = 0
          · subst hqz
            norm_num
          · have h0q : 0 < q := lt_of_le_of_ne hq0 (Ne.symm hqz)
            have hq1' : q < 1 := lt_of_le_of_ne hq1 hqo
            norm_num [hqz, hqo, h0q, hq1']
      · have h0p : 0 < p := lt_of_le_of_ne hp0 (Ne.symm hpz)
        have hp1' : p < 1 := lt_of_le_of_ne hp1 hpo
        by_cases hqz : q = 0
        · subst hqz
          norm_num [hpz, hpo, h0p, hp1']
        · by_cases hqo : q = 1
          · subst hqo
            norm_num [hpz, hpo, h0p, hp1']
          · norm_num [hpz, hpo, hqz, hqo, h0p, hp1']

/-- A change schedule (`ChangeSchedule` from `bandits.hpp`): whether a
changepoint occurs at trial `t`, and the custom arm initialisation for
trial `t` (empty = none, matching the base-class default). -/
structure ScheduleModel where
  changepoint : ℕ → Bool
  custom : ℕ → List ℝ

/-- `NoChangeSchecule`: never changes. -/
def noChangeSchedule : ScheduleModel :=
  ⟨fun _ => false, fun _ => []⟩

/-- State of `StochasticBanditProblem`: trial counter, cumulative realized
reward `R`, current arm means θ, and the best-hindsight expected return
`R*`. The constructor's randomly drawn θ vector is an oracle input of
`init`; the PRNG itself is not modelled. -/
structure StochasticBanditProblem where
  numTrials : ℕ
  cummReward : ℝ
  thetas : List ℝ
  expCummReward : ℝ

/-- A freshly constructed problem with the given (randomly drawn) means. -/
def StochasticBanditProblem.init (thetas : List ℝ) : StochasticBanditProblem :=
  ⟨0, 0, thetas, 0⟩

/-- First-argmax scan as performed by `std::max_element`: start at index 0
and move only on strict improvement, so the first maximiser wins. -/
noncomputable def argmaxFirstIdx (f : ℕ → ℝ) (n : ℕ) : ℕ :=
  (List.range n).foldl (fun best i => if f best < f i then i else best) 0

/-- `StochasticBanditProblem::bestArm`: index of the first maximal θ. -/
noncomputable def StochasticBanditProblem.bestArm (s : StochasticBanditProblem) : ℕ :=
  argmaxFirstIdx (fun i => s.thetas.getD i 0) s.thetas.length

/-- `StochasticBanditProblem::pull`: validate the arm (an invalid arm is a
fatal error, modelled as `none`), count the trial, add the realized
Bernoulli draw to `R`, add the best arm's mean to `R*`, then apply the
change schedule (custom initialisation if non-empty, otherwise the freshly
re-drawn oracle vector `freshThetas`). -/
noncomputable def StochasticBanditProblem.pull (s : StochasticBanditProblem)
    (sch : ScheduleModel) (arm : ℕ) (draw : Bool) (freshThetas : List ℝ) :
    Option (StochasticBanditProblem × ℝ) :=
  if arm < s.thetas.length then
    some
      ({ numTrials := s.numTrials + 1
         cummReward := s.cummReward + (if draw then (1 : ℝ) else 0)
         thetas :=
           if sch.changepoint (s.numTrials + 1) then
             (if (sch.custom (s.numTrials + 1)).isEmpty then freshThetas
              else sch.custom (s.numTrials + 1))
           else s.thetas
         expCummReward := s.expCummReward + s.thetas.getD s.bestArm 0 },
        if draw then (1 : ℝ) else 0)
  else none

lemma argmax_foldl_base_le (f : ℕ → ℝ) :
    ∀ (l : List ℕ) (b : ℕ),
      f b ≤ f (l.foldl (fun best i => if f best < f i then i else best) b) := by
  intro l
  induction l with
  | nil => intro b; exact le_refl _
  | cons i l ih =>
      intro b
      simp only [List.foldl_cons]
      by_cases h : f b < f i
      · rw [if_pos h]
        exact le_trans (le_of_lt h) (ih i)
      · rw [if_neg h]
        exact ih b

lemma argmax_foldl_mem_le (f : ℕ → ℝ) :
    ∀ (l : List ℕ) (b : ℕ) (j : ℕ), j ∈ l →
      f j ≤ f (l.foldl (fun best i => if f best < f i then i else best) b) := by
  intro l
  induction l with
  | nil => intro b j hj; simp at hj
  | cons i l ih =>
      intro b j hj
      simp only [List.foldl_cons]
      rcases List.mem_cons.mp hj with h | h
      · subst h
        by_cases hbi : f b < f j
        · rw [if_pos hbi]
          exact argmax_foldl_base_le f l j
        · rw [if_neg hbi]
          exact le_trans (not_lt.mp hbi) (argmax_foldl_base_le f l b)
      · exact ih _ j h

lemma argmax_foldl_mem_or (f : ℕ → ℝ) :
    ∀ (l : List ℕ) (b : ℕ),
      (l.foldl (fun best i => if f best < f i then i else best) b) = b ∨
        (l.foldl (fun best i => if f best < f i then i else best) b) ∈ l := by
  intro l
  induction l with
  | nil => intro b; exact Or.inl rfl
  | cons i l ih =>
      intro b
      simp only [List.foldl_cons]
      by_cases h : f b < f i
      · rw [if_pos h]
        rcases ih i with h' | h'
        · exact Or.inr (by rw [h']; exact List.mem_cons_self i l)
        · exact Or.inr (List.mem_cons_of_mem i h')
      · rw [if_neg h]
        rcases ih b with h' | h'
        · exact Or.inl h'
        · exact Or.inr (List.mem_cons_of_mem i h')

lemma argmaxFirstIdx_lt (f : ℕ → ℝ) (n : ℕ) (hn : 1 ≤ n) : argmaxFirstIdx f n < n := by
  unfold argmaxFirstIdx
  rcases argmax_foldl_mem_or f (List.range n) 0 with h | h
  · rw [h]; omega
  · exact List.mem_range.mp h

lemma argmaxFirstIdx_le (f : ℕ → ℝ) (n : ℕ) (j : ℕ) (hj : j < n) :
    f j ≤ f (argmaxFirstIdx f n) := by
  unfold argmaxFirstIdx
  exact argmax_foldl_mem_le f (List.range n) 0 j (List.mem_range.mpr hj)

/-- Run a list of pulls (each with its arm, realized draw, and oracle
fresh-θ vector), accumulating the per-pull expected reward
`Σ_t θ_t(a_t)` alongside the evolving state. -/
noncomputable def runPulls (sch : ScheduleModel) :
    StochasticBanditProblem × ℝ → List (ℕ × Bool × List ℝ) →
      Option (StochasticBanditProblem × ℝ)
  | acc, [] => some acc
  | (s, pulled), (arm, draw, freshThetas) :: rest =>
      match s.pull sch arm draw freshThetas with
      | none => none
      | some (s', _) => runPulls sch (s', pulled + s.thetas.getD arm 0) rest

lemma runPulls_exp_ge (sch : ScheduleModel) :
    ∀ (steps : List (ℕ × Bool × List ℝ)) (s0 : StochasticBanditProblem) (acc0 : ℝ)
      (s : StochasticBanditProblem) (acc : ℝ),
      runPulls sch (s0, acc0) steps = some (s, acc) →
      s0.expCummReward - acc0 ≤ s.expCummReward - acc := by
  intro steps
  induction steps with
  | nil =>
      intro s0 acc0 s acc h
      simp only [runPulls, Option.some_inj, Prod.mk.injEq] at h
      rw [h.1, h.2]
  | cons step rest ih =>
      intro s0 acc0 s acc h
      obtain ⟨arm, draw, freshThetas⟩ := step
      by_cases harm : arm < s0.thetas.length
      · rw [runPulls] at h
        rw [StochasticBanditProblem.pull, if_pos harm] at h
        simp only [] at h
        have hlen : 1 ≤ s0.thetas.length := by omega
        have hdom : s0.thetas.getD arm 0 ≤ s0.thetas.getD s0.bestArm 0 :=
          argmaxFirstIdx_le (fun i => s0.thetas.getD i 0) s0.thetas.length arm harm
        have := ih _ _ _ _ h
        simp only [StochasticBanditProblem.expCummReward] at this ⊢
        linarith [this]
      · rw [runPulls] at h
        rw [StochasticBanditProblem.pull, if_neg harm] at h
        simp at h

/-- Counterexample for C4 at a concrete input: with θ = (3/4, 1/2), pulling
arm 1 with a realized Bernoulli draw of 1 gives `R = 1` but `R* = 3/4`,
so the best-hindsight expected return is strictly below the cumulative
realized reward. -/
theorem env_reward_counterexample :
    (StochasticBanditProblem.init [3 / 4, 1 / 2]).pull noChangeSchedule 1 true []
      = some (⟨1, 1, [3 / 4, 1 / 2], 3 / 4⟩, 1) ∧
    (3 / 4 : ℝ) < 1 := by
  constructor
  · have hb : (StochasticBanditProblem.init [3 / 4, 1 / 2]).bestArm = 0 := by
      unfold StochasticBanditProblem.bestArm argmaxFirstIdx StochasticBanditProblem.init
      norm_num [List.range_succ]
    unfold StochasticBanditProblem.pull
    rw [hb]
    norm_num [StochasticBanditProblem.init, noChangeSchedule]
  · norm_num

/-- C4 (amended): after any sequence of valid pulls, the best-hindsight
expected return `R*` dominates the cumulative *expected* reward of the
pulled arms `Σ_t θ_t(a_t)` (the realized reward `R` can exceed `R*`, as a
draw of 1 on a sub-optimal arm shows); and `bestArm` always returns an
in-range index attaining the maximum of the current θ vector. -/
theorem env_best_hindsight_dominates (sch : ScheduleModel)
    (s0 : StochasticBanditProblem) (steps : List (ℕ × Bool × List ℝ))
    (s : StochasticBanditProblem) (acc : ℝ)
    (h : runPulls sch (s0, 0) steps = some (s, acc)) :
    s0.expCummReward + acc ≤ s.expCummReward ∧
    ∀ b : StochasticBanditProblem, 1 ≤ b.thetas.length →
      b.bestArm < b.thetas.length ∧
      ∀ j < b.thetas.length, b.thetas.getD j 0 ≤ b.thetas.getD b.bestArm 0 := by
  constructor
  · have := runPulls_exp_ge sch steps s0 0 s acc h
    linarith
  · intro b hb
    exact ⟨argmaxFirstIdx_lt _ _ hb,
      fun j hj => argmaxFirstIdx_le (fun i => b.thetas.getD i 0) b.thetas.length j hj⟩

/-- Witness for C4 (amended): the empty pull sequence from θ = (1/2). -/
theorem env_best_hindsight_dominates_witness :
    runPulls noChangeSchedule (StochasticBanditProblem.init [1 / 2], 0) [] =
      some (StochasticBanditProblem.init [1 / 2], 0) ∧
    (StochasticBanditProblem.init [1 / 2]).expCummReward + 0
      ≤ (StochasticBanditProblem.init [1 / 2]).expCummReward :=
  ⟨rfl,
    (env_best_hindsight_dominates noChangeSchedule (StochasticBanditProblem.init [1 / 2])
      [] (StochasticBanditProblem.init [1 / 2]) 0 rfl).1⟩

/-- The `unvisitedArms` helper shared (textually) by the three UCB-family
strategies: the arms whose visit count is zero, in increasing order. -/
def unvisitedArmsOf (armVisits : List ℤ) (arms : ℕ) : List ℕ :=
  (List.range arms).filter (fun a => armVisits.getD a 0 = 0)

/-- State of `UCBStrategy` (`ucb.hpp`): per-arm cumulative reward and visit
counts plus the global visit count. The source stores these in `double`s
but only ever adds integer rewards and unit increments, so they are
modelled as integers. -/
structure UCBStrategy where
  arms : ℕ
  armCummReward : List ℤ
  armVisits : List ℤ
  visits : ℤ

/-- The `UCBStrategy` constructor (also the effect of `reset`). -/
def UCBStrategy.init (arms : ℕ) : UCBStrategy :=
  ⟨arms, List.replicate arms 0, List.replicate arms 0, 0⟩

/-- `UCBStrategy::ucb`: empirical mean plus confidence radius
`√(2 log V / v_k)`. -/
noncomputable def UCBStrategy.ucb (s : UCBStrategy) (arm : ℕ) : ℝ :=
  (s.armCummReward.getD arm 0 : ℝ) / (s.armVisits.getD arm 0 : ℝ)
    + Real.sqrt (2 * Real.log (s.visits : ℝ) / (s.armVisits.getD arm 0 : ℝ))

/-- `UCBStrategy::getAction` with the uniform random index `c` over the
unvisited arms as an oracle input: if any arm is unvisited pick
`unvisited[c]`, otherwise scan for the maximal UCB score (the source's
`best = -∞` initialisation makes its scan keep the first maximiser, which
is exactly `argmaxFirstIdx`). -/
noncomputable def UCBStrategy.getAction (s : UCBStrategy) (c : ℕ) : ℕ :=
  if unvisitedArmsOf s.armVisits s.arms ≠ [] then
    (unvisitedArmsOf s.armVisits s.arms).getD c 0
  else
    argmaxFirstIdx s.ucb s.arms

/-- `UCBStrategy::update`. -/
def UCBStrategy.update (s : UCBStrategy) (arm : ℕ) (reward : ℤ) : UCBStrategy :=
  { s with
    armCummReward := s.armCummReward.set arm (s.armCummReward.getD arm 0 + reward)
    armVisits := s.armVisits.set arm (s.armVisits.getD arm 0 + 1)
    visits := s.visits + 1 }

/-- State of `KLUCBStrategy` (`kl_ucb.hpp`). -/
structure KLUCBStrategy where
  arms : ℕ
  armSuccesses : List ℤ
  armVisits : List ℤ
  visits : ℤ

/-- The `KLUCBStrategy` constructor (also the effect of `reset`). -/
def KLUCBStrategy.init (arms : ℕ) : KLUCBStrategy :=
  ⟨arms, List.replicate arms 0, List.replicate arms 0, 0⟩

/-- The C++ comparison `e > ub` on a double that may be NaN or `+∞`:
NaN compares false, `+∞` compares true. -/
noncomputable def klResultGT (e : KLResult) (ub : ℝ) : Bool :=
  match e with
  | KLResult.nan => false
  | KLResult.inf => true
  | KLResult.fin x => decide (ub < x)

/-- The bisection loop of `KLUCBStrategy::maxRelEntropy` (a do-while:
evaluate the midpoint, shrink the bracket, loop while `high - low > 1e-8`).
The loop is modelled with an explicit iteration bound: the bracket halves
each iteration from an initial width of at most 1, so the source's loop
exits after at most 27 iterations and any fuel of at least 27 realizes it
exactly; 64 is used below. -/
noncomputable def maxRelEntropyGo (p ub : ℝ) : ℕ → ℝ → ℝ → ℝ
  | 0, low, _ => low
  | fuel + 1, low, high =>
      let q := low + (high - low) / 2
      let lo' := if klResultGT (bernoulliRelEntropy p q) ub then low else q
      let hi' := if klResultGT (bernoulliRelEntropy p q) ub then q else high
      if (1e-8 : ℝ) < hi' - lo' then maxRelEntropyGo p ub fuel lo' hi' else lo'

/-- `KLUCBStrategy::maxRelEntropy`: largest `q ∈ [p, 1]` with
`KL(p, q) ≤ ub`, by bisection from the bracket `[p, 1]`. -/
noncomputable def KLUCBStrategy.maxRelEntropy (p ub : ℝ) : ℝ :=
  maxRelEntropyGo p ub 64 p 1

/-- `KLUCBStrategy::klUCB`: the score of one arm, with
`f x = 1 + x (log x)²` and bound `log (f (V + 1)) / v_k`. -/
noncomputable def KLUCBStrategy.klUCB (s : KLUCBStrategy) (arm : ℕ) : ℝ :=
  KLUCBStrategy.maxRelEntropy
    ((s.armSuccesses.getD arm 0 : ℝ) / (s.armVisits.getD arm 0 : ℝ))
    (Real.log (1 + ((s.visits : ℝ) + 1) * Real.log ((s.visits : ℝ) + 1)
        * Real.log ((s.visits : ℝ) + 1))
      / (s.armVisits.getD arm 0 : ℝ))

/-- `KLUCBStrategy::getAction` (same structure as UCB1 with the KL-UCB
score). -/
noncomputable def KLUCBStrategy.getAction (s : KLUCBStrategy) (c : ℕ) : ℕ :=
  if unvisitedArmsOf s.armVisits s.arms ≠ [] then
    (unvisitedArmsOf s.armVisits s.arms).getD c 0
  else
    argmaxFirstIdx s.klUCB s.arms

/-- `KLUCBStrategy::update`. -/
def KLUCBStrategy.update (s : KLUCBStrategy) (arm : ℕ) (reward : ℤ) : KLUCBStrategy :=
  { s with
    armSuccesses := s.armSuccesses.set arm (s.armSuccesses.getD arm 0 + reward)
    armVisits := s.armVisits.set arm (s.armVisits.getD arm 0 + 1)
    visits := s.visits + 1 }

/-- State of `SlidingUCBStrategy` (`sliding_ucb.hpp`): the FIFOs of the
last (up to) `window` plays and rewards, plus the windowed per-arm
statistics. -/
structure SlidingUCBStrategy where
  arms : ℕ
  window : ℕ
  plays : List ℕ
  rewards : List ℤ
  armCummReward : List ℤ
  armVisits : List ℤ

/-- The `SlidingUCBStrategy` constructor. -/
def SlidingUCBStrategy.init (arms window : ℕ) : SlidingUCBStrategy :=
  ⟨arms, window, [], [], List.replicate arms 0, List.replicate arms 0⟩

/-- `SlidingUCBStrategy::ucb`: UCB1 over windowed statistics with
`V` the current FIFO size. -/
noncomputable def SlidingUCBStrategy.ucb (s : SlidingUCBStrategy) (arm : ℕ) : ℝ :=
  (s.armCummReward.getD arm 0 : ℝ) / (s.armVisits.getD arm 0 : ℝ)
    + Real.sqrt (2 * Real.log (s.plays.length : ℝ) / (s.armVisits.getD arm 0 : ℝ))

/-- `SlidingUCBStrategy::getAction` (same structure as UCB1). -/
noncomputable def SlidingUCBStrategy.getAction (s : SlidingUCBStrategy) (c : ℕ) : ℕ :=
  if unvisitedArmsOf s.armVisits s.arms ≠ [] then
    (unvisitedArmsOf s.armVisits s.arms).getD c 0
  else
    argmaxFirstIdx s.ucb s.arms

/-- `SlidingUCBStrategy::update`: push the (arm, reward) pair, add to the
windowed statistics, and if the FIFO now exceeds the window evict the
oldest pair, decrementing its arm's statistics. -/
def SlidingUCBStrategy.update (s : SlidingUCBStrategy) (arm : ℕ) (reward : ℤ) :
    SlidingUCBStrategy :=
  let plays' := s.plays ++ [arm]
  let rewards' := s.rewards ++ [reward]
  let cumm' := s.armCummReward.set arm (s.armCummReward.getD arm 0 + reward)
  let visits' := s.armVisits.set arm (s.armVisits.getD arm 0 + 1)
  if s.window < plays'.length then
    { s with
      plays := plays'.tail
      rewards := rewards'.tail
      armCummReward := cumm'.set (plays'.headD 0)
        (cumm'.getD (plays'.headD 0) 0 - rewards'.headD 0)
      armVisits := visits'.set (plays'.headD 0)
        (visits'.getD (plays'.headD 0) 0 - 1) }
  else
    { s with
      plays := plays'
      rewards := rewards'
      armCummReward := cumm'
      armVisits := visits' }

/-- The standard interaction loop for a policy: at each step the policy's
action (with its oracle random index) is fed back to `update` together
with an arbitrary reward. `runPolicy … n` is the state before step `n`. -/
noncomputable def runPolicy {σ : Type} (getA : σ → ℕ → ℕ) (upd : σ → ℕ → ℤ → σ)
    (s0 : σ) (choice : ℕ → ℕ) (rewards : ℕ → ℤ) : ℕ → σ
  | 0 => s0
  | n + 1 =>
      upd (runPolicy getA upd s0 choice rewards n)
        (getA (runPolicy getA upd s0 choice rewards n) (choice n))
        (rewards n)

/-- The action returned by the `n`-th `getAction` call of the loop. -/
noncomputable def policyAction {σ : Type} (getA : σ → ℕ → ℕ) (upd : σ → ℕ → ℤ → σ)
    (s0 : σ) (choice : ℕ → ℕ) (rewards : ℕ → ℤ) (n : ℕ) : ℕ :=
  getA (runPolicy getA upd s0 choice rewards n) (choice n)

lemma unvisitedArmsOf_mem (av : List ℤ) (K a : ℕ) :
    a ∈ unvisitedArmsOf av K ↔ a < K ∧ av.getD a 0 = 0 := by
  simp [unvisitedArmsOf, List.mem_filter, List.mem_range]

lemma unvisitedArmsOf_ne_nil (av : List ℤ) (K : ℕ)
    (h : ∃ a, a < K ∧ av.getD a 0 = 0) : unvisitedArmsOf av K ≠ [] := by
  obtain ⟨a, h1, h2⟩ := h
  intro hnil
  have := (unvisitedArmsOf_mem av K a).mpr ⟨h1, h2⟩
  rw [hnil] at this
  simp at this

lemma getD_mem_of_lt (l : List ℕ) (c : ℕ) (h : c < l.length) : l.getD c 0 ∈ l := by
  rw [List.getD_eq_getElem l 0 h]
  exact List.getElem_mem h

/-- Abstract first-`K`-steps coverage argument for uniform-over-unvisited
policies: if each step with an unvisited arm picks an unvisited arm, the
update marks exactly the picked arm as visited (up to step `K - 1`), and
all arms start unvisited, then every arm is picked in the first `K`
steps. -/
lemma coverage_core (K : ℕ) (act : ℕ → ℕ) (V : ℕ → ℕ → ℤ)
    (h0 : ∀ a, a < K → V 0 a = 0)
    (hact : ∀ t, t < K → act t < K)
    (h1 : ∀ t, t < K → (∃ a, a < K ∧ V t a = 0) → V t (act t) = 0)
    (h2 : ∀ t, t + 1 < K → ∀ a, a < K → (V (t + 1) a ≠ 0 ↔ (V t a ≠ 0 ∨ a = act t))) :
    ∀ a, a < K → ∃ t, t < K ∧ act t = a := by
  rcases Nat.eq_zero_or_pos K with hK | hK
  · intro a ha; omega
  have main : ∀ t, t < K →
      ((∀ a, a ∈ (Finset.range K).filter (fun a => V t a ≠ 0) ↔
          (a < K ∧ ∃ u, u < t ∧ act u = a)) ∧
        ((Finset.range K).filter (fun a => V t a ≠ 0)).card = t) := by
    intro t
    induction t with
    | zero =>
        intro _
        constructor
        · intro a
          simp only [Finset.mem_filter, Finset.mem_range]
          constructor
          · rintro ⟨ha, hv⟩
            exact absurd (h0 a ha) hv
          · rintro ⟨ha, u, hu, -⟩
            omega
        · rw [Finset.card_eq_zero, Finset.filter_eq_empty_iff]
          intro a ha
          simp only [ne_eq, not_not]
          exact h0 a (Finset.mem_range.mp ha)
    | succ t ih =>
        intro ht1
        obtain ⟨hmem, hcard⟩ := ih (by omega)
        have hex : ∃ a, a < K ∧ V t a = 0 := by
          by_contra hcon
          push_neg at hcon
          have hfull : (Finset.range K).filter (fun a => V t a ≠ 0) = Finset.range K := by
            apply Finset.filter_true_of_mem
            intro a ha
            exact hcon a (Finset.mem_range.mp ha)
          rw [hfull, Finset.card_range] at hcard
          omega
        have hunv : V t (act t) = 0 := h1 t (by omega) hex
        have hanew : act t ∉ (Finset.range K).filter (fun a => V t a ≠ 0) := by
          simp [Finset.mem_filter, hunv]
        have hset : (Finset.range K).filter (fun a => V (t + 1) a ≠ 0)
            = insert (act t) ((Finset.range K).filter (fun a => V t a ≠ 0)) := by
          ext a
          simp only [Finset.mem_filter, Finset.mem_range, Finset.mem_insert]
          constructor
          · rintro ⟨haK, hv⟩
            rcases (h2 t ht1 a haK).mp hv with h | h
            · exact Or.inr ⟨haK, h⟩
            · exact Or.inl h
          · rintro (h | ⟨haK, hv⟩)
            · subst h
              refine ⟨hact t (by omega), ?_⟩
              rw [h2 t ht1 (act t) (hact t (by omega))]
              exact Or.inr rfl
            · refine ⟨haK, ?_⟩
              rw [h2 t ht1 a haK]
              exact Or.inl hv
        constructor
        · intro a
          rw [hset]
          simp only [Finset.mem_insert]
          constructor
          · rintro (h | h)
            · subst h
              exact ⟨hact t (by omega), t, by omega, rfl⟩
            · obtain ⟨haK, u, hu, hau⟩ := (hmem a).mp h
              exact ⟨haK, u, by omega, hau⟩
          · rintro ⟨haK, u, hu, hau⟩
            rcases Nat.lt_or_ge u t with h | h
            · exact Or.inr ((hmem a).mpr ⟨haK, u, h, hau⟩)
            · have : u = t := by omega
              subst this
              exact Or.inl hau.symm
        · rw [hset, Finset.card_insert_of_not_mem hanew, hcard]
  intro a ha
  have hlast := main (K - 1) (by omega)
  by_cases hin : a ∈ (Finset.range K).filter (fun b => V (K - 1) b ≠ 0)
  · obtain ⟨-, u, hu, hau⟩ := (hlast.1 a).mp hin
    exact ⟨u, by omega, hau⟩
  · have hV0 : V (K - 1) a = 0 := by
      by_contra hv
      exact hin (Finset.mem_filter.mpr ⟨Finset.mem_range.mpr ha, hv⟩)
    have hunv := h1 (K - 1) (by omega) ⟨a, ha, hV0⟩
    have hsub : (Finset.range K).filter (fun b => V (K - 1) b ≠ 0) ⊆ Finset.range K :=
      Finset.filter_subset _ _
    have hcardU : (Finset.range K \ (Finset.range K).filter (fun b => V (K - 1) b ≠ 0)).card
        = 1 := by
      rw [Finset.card_sdiff hsub, hlast.2, Finset.card_range]
      omega
    have haU : a ∈ Finset.range K \ (Finset.range K).filter (fun b => V (K - 1) b ≠ 0) :=
      Finset.mem_sdiff.mpr ⟨Finset.mem_range.mpr ha, hin⟩
    have hactU : act (K - 1)
        ∈ Finset.range K \ (Finset.range K).filter (fun b => V (K - 1) b ≠ 0) := by
      refine Finset.mem_sdiff.mpr ⟨Finset.mem_range.mpr (hact (K - 1) (by omega)), ?_⟩
      simp [Finset.mem_filter, hunv]
    have := Finset.card_le_one.mp (le_of_eq hcardU) _ hactU _ haU
    exact ⟨K - 1, by omega, this⟩

lemma getD_replicate_zero (K a : ℕ) : (List.replicate K (0 : ℤ)).getD a 0 = 0 := by
  rcases Nat.lt_or_ge a K with h | h
  · rw [List.getD_eq_getElem _ 0 (by simpa using h)]
    simp
  · rw [List.getD_eq_default _ 0 (by simpa using h)]

lemma getD_set_self (l : List ℤ) (i : ℕ) (v : ℤ) (h : i < l.length) :
    (l.set i v).getD i 0 = v := by
  simp [List.getD_eq_getElem?_getD, List.getElem?_set_self, h]

lemma getD_set_ne (l : List ℤ) (i a : ℕ) (v : ℤ) (h : a ≠ i) :
    (l.set i v).getD a 0 = l.getD a 0 := by
  simp [List.getD_eq_getElem?_getD, List.getElem?_set_ne (Ne.symm h)]

lemma visits_nonneg_step (l : List ℤ) (h : ∀ a, 0 ≤ l.getD a 0) (i : ℕ) :
    ∀ a, 0 ≤ (l.set i (l.getD i 0 + 1)).getD a 0 := by
  intro a
  by_cases ha : a = i
  · subst ha
    by_cases hi : a < l.length
    · rw [getD_set_self _ _ _ hi]
      linarith [h a]
    · rw [List.getD_eq_default _ 0 (by simpa using Nat.le_of_not_lt hi)]
  · rw [getD_set_ne _ _ _ _ ha]
    exact h a

/-- Coverage for any strategy of the family: if `getAction` picks
`unvisited[c]` whenever some arm is unvisited, and for the first `K - 1`
updates the visit counts are incremented exactly at the chosen arm, then
every arm is chosen among the first `K` actions. -/
lemma coverage_for_uniform_policy {σ : Type}
    (getA : σ → ℕ → ℕ) (upd : σ → ℕ → ℤ → σ) (s0 : σ)
    (visits : σ → List ℤ) (arms : σ → ℕ) (K : ℕ)
    (choice : ℕ → ℕ) (rew : ℕ → ℤ)
    (h0 : ∀ a, a < K → (visits s0).getD a 0 = 0)
    (harms : ∀ t, t < K → arms (runPolicy getA upd s0 choice rew t) = K)
    (hlen : ∀ t, t < K → (visits (runPolicy getA upd s0 choice rew t)).length = K)
    (hnn : ∀ t, t < K → ∀ a, 0 ≤ (visits (runPolicy getA upd s0 choice rew t)).getD a 0)
    (hget : ∀ s c', unvisitedArmsOf (visits s) (arms s) ≠ [] →
      getA s c' = (unvisitedArmsOf (visits s) (arms s)).getD c' 0)
    (hupd : ∀ t, t + 1 < K →
      visits (runPolicy getA upd s0 choice rew (t + 1))
        = (visits (runPolicy getA upd s0 choice rew t)).set
            (policyAction getA upd s0 choice rew t)
            ((visits (runPolicy getA upd s0 choice rew t)).getD
              (policyAction getA upd s0 choice rew t) 0 + 1))
    (hv : ∀ t, t < K →
      choice t < (unvisitedArmsOf (visits (runPolicy getA upd s0 choice rew t)) K).length) :
    ∀ a, a < K → ∃ t, t < K ∧ policyAction getA upd s0 choice rew t = a := by
  have hpick : ∀ t, t < K →
      policyAction getA upd s0 choice rew t < K ∧
      (visits (runPolicy getA upd s0 choice rew t)).getD
        (policyAction getA upd s0 choice rew t) 0 = 0 := by
    intro t ht
    have hvt := hv t ht
    have hne : unvisitedArmsOf (visits (runPolicy getA upd s0 choice rew t)) K ≠ [] := by
      intro hnil
      rw [hnil] at hvt
      simp at hvt
    have hK : unvisitedArmsOf (visits (runPolicy getA upd s0 choice rew t))
        (arms (runPolicy getA upd s0 choice rew t))
        = unvisitedArmsOf (visits (runPolicy getA upd s0 choice rew t)) K := by
      rw [harms t ht]
    have hgA : policyAction getA upd s0 choice rew t
        = (unvisitedArmsOf (visits (runPolicy getA upd s0 choice rew t)) K).getD
            (choice t) 0 := by
      show getA (runPolicy getA upd s0 choice rew t) (choice t) = _
      rw [hget _ _ (by rw [hK]; exact hne), hK]
    have hmem : policyAction getA upd s0 choice rew t
        ∈ unvisitedArmsOf (visits (runPolicy getA upd s0 choice rew t)) K := by
      rw [hgA]
      exact getD_mem_of_lt _ _ hvt
    exact (unvisitedArmsOf_mem _ _ _).mp hmem
  apply coverage_core K (policyAction getA upd s0 choice rew)
    (fun t a => (visits (runPolicy getA upd s0 choice rew t)).getD a 0)
  · exact h0
  · exact fun t ht => (hpick t ht).1
  · exact fun t ht _ => (hpick t ht).2
  · intro t ht1 a haK
    rw [hupd t ht1]
    by_cases ha : a = policyAction getA upd s0 choice rew t
    · subst ha
      rw [getD_set_self _ _ _ (by rw [hlen t (by omega)]; exact (hpick t (by omega)).1)]
      constructor
      · intro _
        exact Or.inr rfl
      · intro _
        have := hnn t (by omega) (policyAction getA upd s0 choice rew t)
        omega
    · rw [getD_set_ne _ _ _ _ ha]
      constructor
      · exact fun h => Or.inl h
      · rintro (h | h)
        · exact h
        · exact absurd h ha

/-- The UCB1 interaction-loop state before step `t`. -/
noncomputable def ucbRun (K : ℕ) (choice : ℕ → ℕ) (rew : ℕ → ℤ) : ℕ → UCBStrategy :=
  runPolicy UCBStrategy.getAction UCBStrategy.update (UCBStrategy.init K) choice rew

/-- The arm returned by UCB1's `t`-th `getAction`. -/
noncomputable def ucbActionAt (K : ℕ) (choice : ℕ → ℕ) (rew : ℕ → ℤ) (t : ℕ) : ℕ :=
  policyAction UCBStrategy.getAction UCBStrategy.update (UCBStrategy.init K) choice rew t

/-- The KL-UCB interaction-loop state before step `t`. -/
noncomputable def klucbRun (K : ℕ) (choice : ℕ → ℕ) (rew : ℕ → ℤ) : ℕ → KLUCBStrategy :=
  runPolicy KLUCBStrategy.getAction KLUCBStrategy.update (KLUCBStrategy.init K) choice rew

/-- The arm returned by KL-UCB's `t`-th `getAction`. -/
noncomputable def klucbActionAt (K : ℕ) (choice : ℕ → ℕ) (rew : ℕ → ℤ) (t : ℕ) : ℕ :=
  policyAction KLUCBStrategy.getAction KLUCBStrategy.update (KLUCBStrategy.init K) choice rew t

/-- The Sliding-Window UCB interaction-loop state before step `t`. -/
noncomputable def swucbRun (K W : ℕ) (choice : ℕ → ℕ) (rew : ℕ → ℤ) : ℕ → SlidingUCBStrategy :=
  runPolicy SlidingUCBStrategy.getAction SlidingUCBStrategy.update
    (SlidingUCBStrategy.init K W) choice rew

/-- The arm returned by Sliding-Window UCB's `t`-th `getAction`. -/
noncomputable def swucbActionAt (K W : ℕ) (choice : ℕ → ℕ) (rew : ℕ → ℤ) (t : ℕ) : ℕ :=
  policyAction SlidingUCBStrategy.getAction SlidingUCBStrategy.update
    (SlidingUCBStrategy.init K W) choice rew t

lemma ucbRun_arms (K : ℕ) (choice : ℕ → ℕ) (rew : ℕ → ℤ) :
    ∀ t, (ucbRun K choice rew t).arms = K := by
  intro t
  induction t with
  | zero => rfl
  | succ t ih =>
      show (UCBStrategy.update _ _ _).arms = K
      exact ih

lemma ucbRun_visits_len (K : ℕ) (choice : ℕ → ℕ) (rew : ℕ → ℤ) :
    ∀ t, (ucbRun K choice rew t).armVisits.length = K := by
  intro t
  induction t with
  | zero => simp [ucbRun, runPolicy, UCBStrategy.init]
  | succ t ih =>
      show ((UCBStrategy.update _ _ _).armVisits).length = K
      simp only [UCBStrategy.update, List.length_set]
      exact ih

lemma ucbRun_visits_nonneg (K : ℕ) (choice : ℕ → ℕ) (rew : ℕ → ℤ) :
    ∀ t a, 0 ≤ (ucbRun K choice rew t).armVisits.getD a 0 := by
  intro t
  induction t with
  | zero =>
      intro a
      show 0 ≤ (List.replicate K (0 : ℤ)).getD a 0
      rw [getD_replicate_zero]
  | succ t ih =>
      intro a
      show 0 ≤ ((UCBStrategy.update _ _ _).armVisits).getD a 0
      exact visits_nonneg_step _ ih _ a

lemma klucbRun_arms (K : ℕ) (choice : ℕ → ℕ) (rew : ℕ → ℤ) :
    ∀ t, (klucbRun K choice rew t).arms = K := by
  intro t
  induction t with
  | zero => rfl
  | succ t ih =>
      show (KLUCBStrategy.update _ _ _).arms = K
      exact ih

lemma klucbRun_visits_len (K : ℕ) (choice : ℕ → ℕ) (rew : ℕ → ℤ) :
    ∀ t, (klucbRun K choice rew t).armVisits.length = K := by
  intro t
  induction t with
  | zero => simp [klucbRun, runPolicy, KLUCBStrategy.init]
  | succ t ih =>
      show ((KLUCBStrategy.update _ _ _).armVisits).length = K
      simp only [KLUCBStrategy.update, List.length_set]
      exact ih

lemma klucbRun_visits_nonneg (K : ℕ) (choice : ℕ → ℕ) (rew : ℕ → ℤ) :
    ∀ t a, 0 ≤ (klucbRun K choice rew t).armVisits.getD a 0 := by
  intro t
  induction t with
  | zero =>
      intro a
      show 0 ≤ (List.replicate K (0 : ℤ)).getD a 0
      rw [getD_replicate_zero]
  | succ t ih =>
      intro a
      show 0 ≤ ((KLUCBStrategy.update _ _ _).armVisits).getD a 0
      exact visits_nonneg_step _ ih _ a

/-- Effect of `SlidingUCBStrategy::update` when the FIFO does not yet
exceed the window (no eviction). -/
lemma sw_update_no_evict (s : SlidingUCBStrategy) (arm : ℕ) (reward : ℤ)
    (h : s.plays.length + 1 ≤ s.window) :
    SlidingUCBStrategy.update s arm reward
      = { s with
          plays := s.plays ++ [arm]
          rewards := s.rewards ++ [reward]
          armCummReward := s.armCummReward.set arm (s.armCummReward.getD arm 0 + reward)
          armVisits := s.armVisits.set arm (s.armVisits.getD arm 0 + 1) } := by
  unfold SlidingUCBStrategy.update
  have hc : ¬ s.window < (s.plays ++ [arm]).length := by
    simp only [List.length_append, List.length_singleton]
    omega
  simp only [if_neg hc]

lemma swucbRun_succ (K W : ℕ) (choice : ℕ → ℕ) (rew : ℕ → ℤ) (t : ℕ) :
    swucbRun K W choice rew (t + 1)
      = SlidingUCBStrategy.update (swucbRun K W choice rew t)
          (swucbActionAt K W choice rew t) (rew t) := rfl

lemma sw_update_window (s : SlidingUCBStrategy) (arm : ℕ) (reward : ℤ) :
    (SlidingUCBStrategy.update s arm reward).window = s.window := by
  simp only [SlidingUCBStrategy.update]
  split <;> rfl

lemma sw_update_arms (s : SlidingUCBStrategy) (arm : ℕ) (reward : ℤ) :
    (SlidingUCBStrategy.update s arm reward).arms = s.arms := by
  simp only [SlidingUCBStrategy.update]
  split <;> rfl

lemma swRun_window (K W : ℕ) (choice : ℕ → ℕ) (rew : ℕ → ℤ) :
    ∀ t, (swucbRun K W choice rew t).window = W := by
  intro t
  induction t with
  | zero => rfl
  | succ t ih =>
      rw [swucbRun_succ, sw_update_window]
      exact ih

lemma swRun_arms (K W : ℕ) (choice : ℕ → ℕ) (rew : ℕ → ℤ) :
    ∀ t, (swucbRun K W choice rew t).arms = K := by
  intro t
  induction t with
  | zero => rfl
  | succ t ih =>
      rw [swucbRun_succ, sw_update_arms]
      exact ih

lemma swRun_plays_len (K W : ℕ) (choice : ℕ → ℕ) (rew : ℕ → ℤ) (hW : K - 1 ≤ W) :
    ∀ t, t ≤ K - 1 → (swucbRun K W choice rew t).plays.length = t := by
  intro t
  induction t with
  | zero => intro _; rfl
  | succ t ih =>
      intro ht
      have hlen : (swucbRun K W choice rew t).plays.length = t := ih (by omega)
      have hw := swRun_window K W choice rew t
      have hno : (swucbRun K W choice rew t).plays.length + 1
          ≤ (swucbRun K W choice rew t).window := by
        rw [hlen, hw]
        omega
      rw [swucbRun_succ, sw_update_no_evict _ _ _ hno]
      simp only [List.length_append, List.length_singleton]
      omega

lemma swRun_visits_len (K W : ℕ) (choice : ℕ → ℕ) (rew : ℕ → ℤ) (hW : K - 1 ≤ W) :
    ∀ t, t ≤ K - 1 → (swucbRun K W choice rew t).armVisits.length = K := by
  intro t
  induction t with
  | zero => intro _; simp [swucbRun, runPolicy, SlidingUCBStrategy.init]
  | succ t ih =>
      intro ht
      have hlen : (swucbRun K W choice rew t).plays.length = t :=
        swRun_plays_len K W choice rew hW t (by omega)
      have hw := swRun_window K W choice rew t
      have hno : (swucbRun K W choice rew t).plays.length + 1
          ≤ (swucbRun K W choice rew t).window := by
        rw [hlen, hw]
        omega
      rw [swucbRun_succ, sw_update_no_evict _ _ _ hno]
      simp only [List.length_set]
      exact ih (by omega)

lemma swRun_visits_nonneg (K W : ℕ) (choice : ℕ → ℕ) (rew : ℕ → ℤ) (hW : K - 1 ≤ W) :
    ∀ t, t ≤ K - 1 → ∀ a, 0 ≤ (swucbRun K W choice rew t).armVisits.getD a 0 := by
  intro t
  induction t with
  | zero =>
      intro _ a
      show 0 ≤ (List.replicate K (0 : ℤ)).getD a 0
      rw [getD_replicate_zero]
  | succ t ih =>
      intro ht a
      have hlen : (swucbRun K W choice rew t).plays.length = t :=
        swRun_plays_len K W choice rew hW t (by omega)
      have hw := swRun_window K W choice rew t
      have hno : (swucbRun K W choice rew t).plays.length + 1
          ≤ (swucbRun K W choice rew t).window := by
        rw [hlen, hw]
        omega
      rw [swucbRun_succ, sw_update_no_evict _ _ _ hno]
      exact visits_nonneg_step _ (ih (by omega)) _ a

lemma ucb_getAction_unvisited (s : UCBStrategy) (c : ℕ)
    (h : unvisitedArmsOf s.armVisits s.arms ≠ []) :
    s.getAction c = (unvisitedArmsOf s.armVisits s.arms).getD c 0 := by
  unfold UCBStrategy.getAction
  rw [if_pos h]

lemma klucb_getAction_unvisited (s : KLUCBStrategy) (c : ℕ)
    (h : unvisitedArmsOf s.armVisits s.arms ≠ []) :
    s.getAction c = (unvisitedArmsOf s.armVisits s.arms).getD c 0 := by
  unfold KLUCBStrategy.getAction
  rw [if_pos h]

lemma swucb_getAction_unvisited (s : SlidingUCBStrategy) (c : ℕ)
    (h : unvisitedArmsOf s.armVisits s.arms ≠ []) :
    s.getAction c = (unvisitedArmsOf s.armVisits s.arms).getD c 0 := by
  unfold SlidingUCBStrategy.getAction
  rw [if_pos h]

/-- C5 (amended): under the standard interaction loop, every arm in
`[0, K)` is chosen at least once among the first `K` `getAction` calls for
UCB1 and KL-UCB unconditionally, and for Sliding-Window UCB provided the
window satisfies `W ≥ K - 1` (so that no eviction can un-visit an arm
before the `K`-th call). The validity hypotheses say the oracle index of
each uniform draw is in range, as the source's distribution guarantees. -/
theorem ucb_family_first_k_coverage (K W : ℕ)
    (choiceU choiceK choiceS : ℕ → ℕ) (rewU rewK rewS : ℕ → ℤ)
    (hvU : ∀ t, t < K →
      choiceU t < (unvisitedArmsOf (ucbRun K choiceU rewU t).armVisits K).length)
    (hvK : ∀ t, t < K →
      choiceK t < (unvisitedArmsOf (klucbRun K choiceK rewK t).armVisits K).length)
    (hvS : ∀ t, t < K →
      choiceS t < (unvisitedArmsOf (swucbRun K W choiceS rewS t).armVisits K).length) :
    (∀ a, a < K → ∃ t, t < K ∧ ucbActionAt K choiceU rewU t = a) ∧
    (∀ a, a < K → ∃ t, t < K ∧ klucbActionAt K choiceK rewK t = a) ∧
    (K - 1 ≤ W → ∀ a, a < K → ∃ t, t < K ∧ swucbActionAt K W choiceS rewS t = a) := by
  refine ⟨?_, ?_, ?_⟩
  · exact coverage_for_uniform_policy UCBStrategy.getAction UCBStrategy.update
      (UCBStrategy.init K) (fun s => s.armVisits) (fun s => s.arms) K choiceU rewU
      (fun a _ => getD_replicate_zero K a)
      (fun t _ => ucbRun_arms K choiceU rewU t)
      (fun t _ => ucbRun_visits_len K choiceU rewU t)
      (fun t _ => ucbRun_visits_nonneg K choiceU rewU t)
      (fun s c' h => ucb_getAction_unvisited s c' h)
      (fun t _ => rfl) hvU
  · exact coverage_for_uniform_policy KLUCBStrategy.getAction KLUCBStrategy.update
      (KLUCBStrategy.init K) (fun s => s.armVisits) (fun s => s.arms) K choiceK rewK
      (fun a _ => getD_replicate_zero K a)
      (fun t _ => klucbRun_arms K choiceK rewK t)
      (fun t _ => klucbRun_visits_len K choiceK rewK t)
      (fun t _ => klucbRun_visits_nonneg K choiceK rewK t)
      (fun s c' h => klucb_getAction_unvisited s c' h)
      (fun t _ => rfl) hvK
  · intro hW
    refine coverage_for_uniform_policy SlidingUCBStrategy.getAction SlidingUCBStrategy.update
      (SlidingUCBStrategy.init K W) (fun s => s.armVisits) (fun s => s.arms) K choiceS rewS
      (fun a _ => getD_replicate_zero K a)
      (fun t _ => swRun_arms K W choiceS rewS t)
      (fun t ht => swRun_visits_len K W choiceS rewS hW t (by omega))
      (fun t ht => swRun_visits_nonneg K W choiceS rewS hW t (by omega))
      (fun s c' h => swucb_getAction_unvisited s c' h)
      ?_ hvS
    intro t ht1
    have hlen : (swucbRun K W choiceS rewS t).plays.length = t :=
      swRun_plays_len K W choiceS rewS hW t (by omega)
    have hw := swRun_window K W choiceS rewS t
    have hno : (swucbRun K W choiceS rewS t).plays.length + 1
        ≤ (swucbRun K W choiceS rewS t).window := by
      rw [hlen, hw]
      omega
    show (swucbRun K W choiceS rewS (t + 1)).armVisits = _
    rw [swucbRun_succ, sw_update_no_evict _ _ _ hno]
    rfl

/-- Counterexample for C5 as stated: Sliding-Window UCB with `K = 3` arms
and window `W = 1`, with the uniform oracle always drawing index 0 and all
rewards 0, chooses the arms 0, 1, 0 in its first three calls — arm 2 is
never chosen. (Each draw is in range: the unvisited list is non-empty at
all three steps, because the second update evicts the first play and makes
arm 0 unvisited again.) -/
theorem sliding_ucb_first_k_counterexample :
    swucbActionAt 3 1 (fun _ => 0) (fun _ => 0) 0 = 0 ∧
    swucbActionAt 3 1 (fun _ => 0) (fun _ => 0) 1 = 1 ∧
    swucbActionAt 3 1 (fun _ => 0) (fun _ => 0) 2 = 0 ∧
    0 < (unvisitedArmsOf (swucbRun 3 1 (fun _ => 0) (fun _ => 0) 0).armVisits 3).length ∧
    0 < (unvisitedArmsOf (swucbRun 3 1 (fun _ => 0) (fun _ => 0) 1).armVisits 3).length ∧
    0 < (unvisitedArmsOf (swucbRun 3 1 (fun _ => 0) (fun _ => 0) 2).armVisits 3).length ∧
    swucbActionAt 3 1 (fun _ => 0) (fun _ => 0) 0 ≠ 2 ∧
    swucbActionAt 3 1 (fun _ => 0) (fun _ => 0) 1 ≠ 2 ∧
    swucbActionAt 3 1 (fun _ => 0) (fun _ => 0) 2 ≠ 2 := by
  decide

/-- Witness for C5 (amended) at `K = 1`, `W = 0`. -/
theorem ucb_family_first_k_coverage_witness :
    (∀ a, a < 1 → ∃ t, t < 1 ∧ ucbActionAt 1 (fun _ => 0) (fun _ => 0) t = a) ∧
    (∀ a, a < 1 → ∃ t, t < 1 ∧ klucbActionAt 1 (fun _ => 0) (fun _ => 0) t = a) ∧
    (∀ a, a < 1 → ∃ t, t < 1 ∧ swucbActionAt 1 0 (fun _ => 0) (fun _ => 0) t = a) := by
  have h := ucb_family_first_k_coverage 1 0 (fun _ => 0) (fun _ => 0) (fun _ => 0)
    (fun _ => 0) (fun _ => 0) (fun _ => 0)
    (by intro t ht; interval_cases t; decide)
    (by intro t ht; interval_cases t; decide)
    (by intro t ht; interval_cases t; decide)
  exact ⟨h.1, h.2.1, h.2.2 (by decide)⟩

/-- One MALG sub-instance (`MalgUCB::instance_t`): a UCB1 strategy plus
its inclusive time window `[s, e]`. The per-level PRNG seed `base + m`
only feeds the unmodelled generator. -/
structure MalgInstanceState where
  alg : UCBStrategy
  s : ℕ
  e : ℕ

/-- `instance_t::length`: the window length `e - s + 1`. -/
def MalgInstanceState.length (i : MalgInstanceState) : ℕ :=
  i.e - i.s + 1

/-- State of `MalgUCB`: arm count, depth `n`, step counter `τ` (starting
at 1) and the `n + 1` optional sub-instances. -/
structure MalgUCB where
  arms : ℕ
  n : ℕ
  tau : ℕ
  instances : List (Option MalgInstanceState)

/-- The `MalgUCB` constructor: `τ = 1`, all `n + 1` instance slots null. -/
def MalgUCB.init (arms depth : ℕ) : MalgUCB :=
  ⟨arms, depth, 1, List.replicate (depth + 1) none⟩

/-- `MalgUCB::rho`: the average regret proxy `√(K/t) + K/t`. -/
noncomputable def rho (arms : ℕ) (t : ℝ) : ℝ :=
  Real.sqrt ((arms : ℝ) / t) + (arms : ℝ) / t

/-- One level of the resetting schedule of `MalgUCB::getAction`: if
`τ - 1` is divisible by `2^m`, draw `u` and, when `u` is below the
threshold `ρ(2^n)/ρ(2^m)`, (re)install the level-`m` sub-instance with a
fresh UCB1 and window `[τ, τ + 2^m - 1]` (creating and resetting both
leave zeroed statistics; the PRNG is not modelled). -/
noncomputable def installAt (st : MalgUCB) (m : ℕ) (u : ℝ) : MalgUCB :=
  if (st.tau - 1) % 2 ^ m = 0 then
    if u < rho st.arms ((2 : ℝ) ^ st.n) / rho st.arms ((2 : ℝ) ^ m) then
      { st with
        instances := st.instances.set m
          (some ⟨UCBStrategy.init st.arms, st.tau, st.tau + 2 ^ m - 1⟩) }
    else st
  else st

/-- The full resetting loop of `MalgUCB::getAction`: for
`off = 0 .. n`, handle level `m = n - off`, with one oracle draw per
level. -/
noncomputable def malgInstallPhase (st : MalgUCB) (draws : ℕ → ℝ) : MalgUCB :=
  (List.range (st.n + 1)).foldl
    (fun acc off => installAt acc (st.n - off) (draws (st.n - off))) st

/-- The scan of `MalgUCB::activeInstance`: over all slots, keep the
non-null instance with the smallest window length whose window contains
`τ` (`none` plays the role of the initial `SIZE_MAX` best). Returns the
best `(length, index)` pair, or `none` if no instance covers `τ`. -/
def malgScanStep (tau : ℕ) (instances : List (Option MalgInstanceState))
    (acc : Option (ℕ × ℕ)) (i : ℕ) : Option (ℕ × ℕ) :=
  match instances.getD i none with
  | none => acc
  | some inst =>
      if inst.s ≤ tau ∧ tau ≤ inst.e then
        match acc with
        | none => some (inst.length, i)
        | some b => if inst.length < b.1 then some (inst.length, i) else acc
      else acc

def malgActiveScan (tau : ℕ) (instances : List (Option MalgInstanceState)) :
    Option (ℕ × ℕ) :=
  (List.range instances.length).foldl (malgScanStep tau instances) none

/-- The index returned by `MalgUCB::activeInstance` (`none` models the
assertion failure when no instance covers `τ`). -/
def malgActiveIdx (st : MalgUCB) : Option ℕ :=
  (malgActiveScan st.tau st.instances).map Prod.snd

/-- `MalgUCB::getAction`: run the resetting schedule, then delegate to the
active instance's UCB1 `getAction` (with its uniform-index oracle `c`). -/
noncomputable def MalgUCB.getAction (st : MalgUCB) (draws : ℕ → ℝ) (c : ℕ) :
    MalgUCB × Option ℕ :=
  let st' := malgInstallPhase st draws
  match malgActiveIdx st' with
  | none => (st', none)
  | some i =>
      match st'.instances.getD i none with
      | none => (st', none)
      | some inst => (st', some (inst.alg.getAction c))

/-- `MalgUCB::update`: forward the reward to the active instance and
increment `τ` (the source asserts an active instance exists). -/
noncomputable def MalgUCB.update (st : MalgUCB) (arm : ℕ) (reward : ℤ) : MalgUCB :=
  match malgActiveIdx st with
  | some i =>
      { st with
        instances := st.instances.set i
          ((st.instances.getD i none).map
            (fun inst => { inst with alg := inst.alg.update arm reward }))
        tau := st.tau + 1 }
  | none => { st with tau := st.tau + 1 }

/-- The alternating `getAction`/`update` protocol for MALG, with one draw
function per round, one uniform-index oracle per round, and arbitrary
rewards. `malgRun … n` is the state at the start of round `n`. -/
noncomputable def malgRun (arms depth : ℕ) (draws : ℕ → ℕ → ℝ) (choices : ℕ → ℕ)
    (rewards : ℕ → ℤ) : ℕ → MalgUCB
  | 0 => MalgUCB.init arms depth
  | n + 1 =>
      MalgUCB.update
        (MalgUCB.getAction (malgRun arms depth draws choices rewards n) (draws n)
          (choices n)).1
        ((MalgUCB.getAction (malgRun arms depth draws choices rewards n) (draws n)
          (choices n)).2.getD 0)
        (rewards n)

lemma getD_set_self_any {α : Type} (l : List α) (d : α) (i : ℕ) (v : α)
    (h : i < l.length) : (l.set i v).getD i d = v := by
  simp [List.getD_eq_getElem?_getD, List.getElem?_set_self, h]

lemma getD_set_ne_any {α : Type} (l : List α) (d : α) (i a : ℕ) (v : α)
    (h : a ≠ i) : (l.set i v).getD a d = l.getD a d := by
  simp [List.getD_eq_getElem?_getD, List.getElem?_set_ne (Ne.symm h)]

lemma rho_pos (arms : ℕ) (x : ℝ) (hK : 1 ≤ arms) (hx : 0 < x) : 0 < rho arms x := by
  unfold rho
  have ha : (0 : ℝ) < (arms : ℝ) := by exact_mod_cast hK
  have hdiv : 0 < (arms : ℝ) / x := div_pos ha hx
  have := Real.sqrt_nonneg ((arms : ℝ) / x)
  linarith

lemma installAt_arms (st : MalgUCB) (m : ℕ) (u : ℝ) :
    (installAt st m u).arms = st.arms := by
  unfold installAt
  split_ifs <;> rfl

lemma installAt_n (st : MalgUCB) (m : ℕ) (u : ℝ) :
    (installAt st m u).n = st.n := by
  unfold installAt
  split_ifs <;> rfl

lemma installAt_tau (st : MalgUCB) (m : ℕ) (u : ℝ) :
    (installAt st m u).tau = st.tau := by
  unfold installAt
  split_ifs <;> rfl

lemma installAt_len (st : MalgUCB) (m : ℕ) (u : ℝ) :
    (installAt st m u).instances.length = st.instances.length := by
  unfold installAt
  split_ifs <;> simp

lemma installAt_getD_ne (st : MalgUCB) (m : ℕ) (u : ℝ) (j : ℕ) (h : j ≠ m) :
    (installAt st m u).instances.getD j none = st.instances.getD j none := by
  unfold installAt
  split_ifs with h1 h2
  · exact getD_set_ne_any _ _ _ _ _ h
  · rfl
  · rfl

lemma installAt_not_div (st : MalgUCB) (m : ℕ) (u : ℝ)
    (h : ¬ (st.tau - 1) % 2 ^ m = 0) : installAt st m u = st := by
  unfold installAt
  rw [if_neg h]

lemma installAt_installs (st : MalgUCB) (m : ℕ) (u : ℝ)
    (hdiv : (st.tau - 1) % 2 ^ m = 0)
    (hu : u < rho st.arms ((2 : ℝ) ^ st.n) / rho st.arms ((2 : ℝ) ^ m)) :
    installAt st m u
      = { st with
          instances := st.instances.set m
            (some ⟨UCBStrategy.init st.arms, st.tau, st.tau + 2 ^ m - 1⟩) } := by
  unfold installAt
  rw [if_pos hdiv, if_pos hu]

/-- A draw below 1 always installs at level `n` (threshold
`ρ(2^n)/ρ(2^n) = 1`). -/
lemma installAt_top_installs (st : MalgUCB) (u : ℝ) (hK : 1 ≤ st.arms)
    (hdiv : (st.tau - 1) % 2 ^ st.n = 0) (hu : u < 1) :
    installAt st st.n u
      = { st with
          instances := st.instances.set st.n
            (some ⟨UCBStrategy.init st.arms, st.tau, st.tau + 2 ^ st.n - 1⟩) } := by
  apply installAt_installs st st.n u hdiv
  have hpos : 0 < rho st.arms ((2 : ℝ) ^ st.n) :=
    rho_pos st.arms _ hK (by positivity)
  rw [div_self (ne_of_gt hpos)]
  exact hu

/-- The post-install invariant at the top level `n`: slot `n` holds an
instance whose aligned window of length `2^n` contains `τ`. -/
def MalgTopInv (st : MalgUCB) : Prop :=
  ∃ inst, st.instances.getD st.n none = some inst ∧
    inst.s ≤ st.tau ∧ st.tau ≤ inst.e ∧
    inst.e = inst.s + 2 ^ st.n - 1 ∧ (inst.s - 1) % 2 ^ st.n = 0 ∧ 1 ≤ inst.s

lemma foldl_installAt_preserve (draws : ℕ → ℝ) (nval : ℕ) (j : ℕ) :
    ∀ (l : List ℕ) (acc : MalgUCB), (∀ off ∈ l, nval - off ≠ j) →
      ((l.foldl (fun acc off => installAt acc (nval - off) (draws (nval - off)))
          acc).instances.getD j none = acc.instances.getD j none) ∧
      (l.foldl (fun acc off => installAt acc (nval - off) (draws (nval - off)))
          acc).tau = acc.tau ∧
      (l.foldl (fun acc off => installAt acc (nval - off) (draws (nval - off)))
          acc).n = acc.n ∧
      (l.foldl (fun acc off => installAt acc (nval - off) (draws (nval - off)))
          acc).arms = acc.arms ∧
      (l.foldl (fun acc off => installAt acc (nval - off) (draws (nval - off)))
          acc).instances.length = acc.instances.length := by
  intro l
  induction l with
  | nil => intro acc _; exact ⟨rfl, rfl, rfl, rfl, rfl⟩
  | cons off l ih =>
      intro acc hl
      have hoff : nval - off ≠ j := hl off (List.mem_cons_self off l)
      have hrest : ∀ o ∈ l, nval - o ≠ j :=
        fun o ho => hl o (List.mem_cons_of_mem off ho)
      simp only [List.foldl_cons]
      obtain ⟨h1, h2, h3, h4, h5⟩ := ih (installAt acc (nval - off) (draws (nval - off))) hrest
      exact ⟨by rw [h1, installAt_getD_ne _ _ _ _ (Ne.symm hoff)],
        by rw [h2, installAt_tau],
        by rw [h3, installAt_n],
        by rw [h4, installAt_arms],
        by rw [h5, installAt_len]⟩

lemma malgInstallPhase_decomp (st : MalgUCB) (draws : ℕ → ℝ) :
    malgInstallPhase st draws
      = (((List.range st.n).map Nat.succ).foldl
          (fun acc off => installAt acc (st.n - off) (draws (st.n - off)))
          (installAt st st.n (draws st.n))) := by
  unfold malgInstallPhase
  rw [List.range_succ_eq_map]
  simp only [List.foldl_cons, Nat.sub_zero]

lemma map_succ_sub_ne (nval : ℕ) :
    ∀ off ∈ (List.range nval).map Nat.succ, nval - off ≠ nval := by
  intro off hoff
  simp only [List.mem_map, List.mem_range] at hoff
  obtain ⟨o, ho, rfl⟩ := hoff
  omega

lemma malgInstallPhase_tau (st : MalgUCB) (draws : ℕ → ℝ) :
    (malgInstallPhase st draws).tau = st.tau := by
  rw [malgInstallPhase_decomp]
  obtain ⟨-, h2, -, -, -⟩ :=
    foldl_installAt_preserve draws st.n st.n ((List.range st.n).map Nat.succ)
      (installAt st st.n (draws st.n)) (map_succ_sub_ne st.n)
  rw [h2, installAt_tau]

lemma malgInstallPhase_n (st : MalgUCB) (draws : ℕ → ℝ) :
    (malgInstallPhase st draws).n = st.n := by
  rw [malgInstallPhase_decomp]
  obtain ⟨-, -, h3, -, -⟩ :=
    foldl_installAt_preserve draws st.n st.n ((List.range st.n).map Nat.succ)
      (installAt st st.n (draws st.n)) (map_succ_sub_ne st.n)
  rw [h3, installAt_n]

lemma malgInstallPhase_arms (st : MalgUCB) (draws : ℕ → ℝ) :
    (malgInstallPhase st draws).arms = st.arms := by
  rw [malgInstallPhase_decomp]
  obtain ⟨-, -, -, h4, -⟩ :=
    foldl_installAt_preserve draws st.n st.n ((List.range st.n).map Nat.succ)
      (installAt st st.n (draws st.n)) (map_succ_sub_ne st.n)
  rw [h4, installAt_arms]

lemma malgInstallPhase_len (st : MalgUCB) (draws : ℕ → ℝ) :
    (malgInstallPhase st draws).instances.length = st.instances.length := by
  rw [malgInstallPhase_decomp]
  obtain ⟨-, -, -, -, h5⟩ :=
    foldl_installAt_preserve draws st.n st.n ((List.range st.n).map Nat.succ)
      (installAt st st.n (draws st.n)) (map_succ_sub_ne st.n)
  rw [h5, installAt_len]

lemma malgInstallPhase_getD_n (st : MalgUCB) (draws : ℕ → ℝ) :
    (malgInstallPhase st draws).instances.getD st.n none
      = (installAt st st.n (draws st.n)).instances.getD st.n none := by
  rw [malgInstallPhase_decomp]
  obtain ⟨h1, -, -, -, -⟩ :=
    foldl_installAt_preserve draws st.n st.n ((List.range st.n).map Nat.succ)
      (installAt st st.n (draws st.n)) (map_succ_sub_ne st.n)
  exact h1

/-- After the install phase, the top-level invariant holds, provided it
held before the round or the top level is due for a reinstall. -/
lemma malgInstallPhase_topInv (st : MalgUCB) (draws : ℕ → ℝ)
    (hK : 1 ≤ st.arms) (hlen : st.instances.length = st.n + 1)
    (htau1 : 1 ≤ st.tau)
    (hdraw : 0 ≤ draws st.n ∧ draws st.n < 1)
    (hpre : (st.tau - 1) % 2 ^ st.n = 0 ∨ MalgTopInv st) :
    MalgTopInv (malgInstallPhase st draws) := by
  by_cases hdiv : (st.tau - 1) % 2 ^ st.n = 0
  · refine ⟨⟨UCBStrategy.init st.arms, st.tau, st.tau + 2 ^ st.n - 1⟩, ?_, ?_, ?_, ?_, ?_, ?_⟩
    · rw [malgInstallPhase_n st draws, malgInstallPhase_getD_n st draws,
        installAt_top_installs st (draws st.n) hK hdiv hdraw.2]
      exact getD_set_self_any _ _ _ _ (by omega)
    · rw [malgInstallPhase_tau]
    · rw [malgInstallPhase_tau]
      show st.tau ≤ st.tau + 2 ^ st.n - 1
      have : 1 ≤ 2 ^ st.n := Nat.one_le_two_pow
      omega
    · rw [malgInstallPhase_n]
    · rw [malgInstallPhase_n]
      exact hdiv
    · exact htau1
  · rcases hpre with h | h
    · exact absurd h hdiv
    · obtain ⟨inst, h1, h2, h3, h4, h5, h6⟩ := h
      refine ⟨inst, ?_, ?_, ?_, ?_, ?_, ?_⟩
      · rw [malgInstallPhase_n st draws, malgInstallPhase_getD_n st draws,
          installAt_not_div st st.n (draws st.n) hdiv]
        exact h1
      · rw [malgInstallPhase_tau]; exact h2
      · rw [malgInstallPhase_tau]; exact h3
      · rw [malgInstallPhase_n]; exact h4
      · rw [malgInstallPhase_n]; exact h5
      · exact h6

lemma malgScanStep_isSome (tau : ℕ) (instances : List (Option MalgInstanceState))
    (acc : Option (ℕ × ℕ)) (i : ℕ) (h : acc.isSome) :
    (malgScanStep tau instances acc i).isSome := by
  unfold malgScanStep
  cases hg : instances.getD i none with
  | none => exact h
  | some inst =>
      dsimp only
      by_cases hc : inst.s ≤ tau ∧ tau ≤ inst.e
      · rw [if_pos hc]
        cases acc with
        | none => rfl
        | some b =>
            dsimp only
            by_cases hl : inst.length < b.1
            · rw [if_pos hl]; rfl
            · rw [if_neg hl]; exact h
      · rw [if_neg hc]; exact h

lemma foldl_scanStep_isSome (tau : ℕ) (instances : List (Option MalgInstanceState)) :
    ∀ (l : List ℕ) (acc : Option (ℕ × ℕ)), acc.isSome →
      ((l.foldl (malgScanStep tau instances) acc).isSome) := by
  intro l
  induction l with
  | nil => intro acc h; exact h
  | cons i l ih =>
      intro acc h
      exact ih _ (malgScanStep_isSome tau instances acc i h)

lemma foldl_scanStep_isSome_of_mem (tau : ℕ) (instances : List (Option MalgInstanceState))
    (j : ℕ) (inst : MalgInstanceState) (hg : instances.getD j none = some inst)
    (h1 : inst.s ≤ tau) (h2 : tau ≤ inst.e) :
    ∀ (l : List ℕ) (acc : Option (ℕ × ℕ)), j ∈ l →
      ((l.foldl (malgScanStep tau instances) acc).isSome) := by
  intro l
  induction l with
  | nil => intro acc h; simp at h
  | cons i l ih =>
      intro acc hmem
      rcases List.mem_cons.mp hmem with h | h
      · subst h
        apply foldl_scanStep_isSome tau instances l
        unfold malgScanStep
        rw [hg]
        dsimp only
        rw [if_pos ⟨h1, h2⟩]
        cases acc with
        | none => rfl
        | some b =>
            dsimp only
            by_cases hl : inst.length < b.1
            · rw [if_pos hl]; rfl
            · rw [if_neg hl]; rfl
      · exact ih _ h

lemma malgActiveScan_isSome (tau : ℕ) (instances : List (Option MalgInstanceState))
    (j : ℕ) (inst : MalgInstanceState) (hj : j < instances.length)
    (hg : instances.getD j none = some inst) (h1 : inst.s ≤ tau) (h2 : tau ≤ inst.e) :
    (malgActiveScan tau instances).isSome :=
  foldl_scanStep_isSome_of_mem tau instances j inst hg h1 h2
    (List.range instances.length) none (List.mem_range.mpr hj)

lemma malgGetAction_fst (st : MalgUCB) (draws : ℕ → ℝ) (c : ℕ) :
    (MalgUCB.getAction st draws c).1 = malgInstallPhase st draws := by
  cases hm : malgActiveIdx (malgInstallPhase st draws) with
  | none => simp [MalgUCB.getAction, hm]
  | some i =>
      cases hg : (malgInstallPhase st draws).instances.getD i none <;>
        rw [List.getD_eq_getElem?_getD] at hg <;>
        simp [MalgUCB.getAction, List.getD_eq_getElem?_getD, hm, hg]

lemma malgUpdate_tau (st : MalgUCB) (arm : ℕ) (reward : ℤ) :
    (MalgUCB.update st arm reward).tau = st.tau + 1 := by
  unfold MalgUCB.update
  cases hm : malgActiveIdx st <;> simp [hm]

lemma malgUpdate_n (st : MalgUCB) (arm : ℕ) (reward : ℤ) :
    (MalgUCB.update st arm reward).n = st.n := by
  unfold MalgUCB.update
  cases hm : malgActiveIdx st <;> simp [hm]

lemma malgUpdate_arms (st : MalgUCB) (arm : ℕ) (reward : ℤ) :
    (MalgUCB.update st arm reward).arms = st.arms := by
  unfold MalgUCB.update
  cases hm : malgActiveIdx st <;> simp [hm]

lemma malgUpdate_len (st : MalgUCB) (arm : ℕ) (reward : ℤ) :
    (MalgUCB.update st arm reward).instances.length = st.instances.length := by
  unfold MalgUCB.update
  cases hm : malgActiveIdx st <;> simp [hm]

lemma malgUpdate_window_preserved (st : MalgUCB) (arm : ℕ) (reward : ℤ)
    (inst : MalgInstanceState) (h : st.instances.getD st.n none = some inst) :
    ∃ inst', (MalgUCB.update st arm reward).instances.getD st.n none = some inst' ∧
      inst'.s = inst.s ∧ inst'.e = inst.e := by
  have hlen : st.n < st.instances.length := by
    by_contra hc
    rw [List.getD_eq_default _ _ (Nat.le_of_not_lt hc)] at h
    exact Option.noConfusion h
  unfold MalgUCB.update
  cases hm : malgActiveIdx st with
  | none =>
      refine ⟨inst, ?_, rfl, rfl⟩
      simpa using h
  | some i =>
      dsimp only
      by_cases hij : st.n = i
      · subst hij
        rw [getD_set_self_any _ _ _ _ hlen, h]
        exact ⟨_, rfl, rfl, rfl⟩
      · rw [getD_set_ne_any _ _ _ _ _ hij]
        exact ⟨inst, h, rfl, rfl⟩

/-- The per-round invariant of the MALG protocol. -/
def MalgRoundInv (arms depth : ℕ) (st : MalgUCB) : Prop :=
  1 ≤ st.tau ∧ st.instances.length = st.n + 1 ∧ st.n = depth ∧ st.arms = arms ∧
    ((st.tau - 1) % 2 ^ st.n = 0 ∨ MalgTopInv st)

lemma malgRun_inv (arms depth : ℕ) (hK : 1 ≤ arms) (draws : ℕ → ℕ → ℝ)
    (choices : ℕ → ℕ) (rewards : ℕ → ℤ)
    (hdraws : ∀ n m, 0 ≤ draws n m ∧ draws n m < 1) :
    ∀ n, MalgRoundInv arms depth (malgRun arms depth draws choices rewards n) ∧
      MalgTopInv (malgInstallPhase (malgRun arms depth draws choices rewards n) (draws n)) := by
  have hstep : ∀ n, MalgRoundInv arms depth (malgRun arms depth draws choices rewards n) →
      MalgTopInv (malgInstallPhase (malgRun arms depth draws choices rewards n) (draws n)) := by
    intro n hinv
    obtain ⟨htau, hlen, hn, harms, hdisj⟩ := hinv
    apply malgInstallPhase_topInv _ _ (by rw [harms]; exact hK) (by rw [hlen, hn]) htau
    · exact hdraws n _
    · exact hdisj
  intro n
  induction n with
  | zero =>
      have hinv : MalgRoundInv arms depth (malgRun arms depth draws choices rewards 0) := by
        refine ⟨le_refl 1, ?_, rfl, rfl, Or.inl (by simp [malgRun, MalgUCB.init])⟩
        simp [malgRun, MalgUCB.init]
      exact ⟨hinv, hstep 0 hinv⟩
  | succ n ih =>
      obtain ⟨hinv, htop⟩ := ih
      obtain ⟨htau, hlen, hn, harms, -⟩ := hinv
      have hrun : malgRun arms depth draws choices rewards (n + 1)
          = MalgUCB.update
              (malgInstallPhase (malgRun arms depth draws choices rewards n) (draws n))
              ((MalgUCB.getAction (malgRun arms depth draws choices rewards n) (draws n)
                (choices n)).2.getD 0)
              (rewards n) := by
        show MalgUCB.update (MalgUCB.getAction _ _ _).1 _ _ = _
        rw [malgGetAction_fst]
      set stp := malgInstallPhase (malgRun arms depth draws choices rewards n) (draws n)
        with hstp
      have hptau : stp.tau = (malgRun arms depth draws choices rewards n).tau :=
        malgInstallPhase_tau _ _
      have hpn : stp.n = depth := by rw [malgInstallPhase_n, hn]
      have hplen : stp.instances.length = depth + 1 := by
        rw [malgInstallPhase_len, hlen, hn]
      have hparms : stp.arms = arms := by rw [malgInstallPhase_arms, harms]
      have hinv' : MalgRoundInv arms depth (malgRun arms depth draws choices rewards (n + 1)) := by
        rw [hrun]
        refine ⟨?_, ?_, ?_, ?_, ?_⟩
        · rw [malgUpdate_tau]; omega
        · rw [malgUpdate_len, malgUpdate_n, hplen, hpn]
        · rw [malgUpdate_n, hpn]
        · rw [malgUpdate_arms, hparms]
        · rw [malgUpdate_tau, malgUpdate_n, hpn]
          by_cases hdiv : (stp.tau + 1 - 1) % 2 ^ depth = 0
          · exact Or.inl hdiv
          · right
            obtain ⟨inst, hg, hs, he, hwin, halign, hs1⟩ := htop
            rw [hpn] at hwin halign
            obtain ⟨inst', hg', hs', he'⟩ :=
              malgUpdate_window_preserved stp
                ((MalgUCB.getAction (malgRun arms depth draws choices rewards n) (draws n)
                  (choices n)).2.getD 0) (rewards n) inst hg
            refine ⟨inst', ?_, ?_, ?_, ?_, ?_, ?_⟩
            · rw [malgUpdate_n]
              exact hg'
            · rw [malgUpdate_tau, hs']
              omega
            · rw [malgUpdate_tau, he', hwin]
              have h2p : 1 ≤ 2 ^ depth := Nat.one_le_two_pow
              rcases Nat.lt_or_ge stp.tau inst.e with hlt | hge
              · omega
              · exfalso
                have htaue : stp.tau = inst.e := by omega
                apply hdiv
                rw [htaue, hwin]
                have : inst.s + 2 ^ depth - 1 + 1 - 1 = (inst.s - 1) + 2 ^ depth := by omega
                rw [this, Nat.add_mod_right]
                exact halign
            · rw [malgUpdate_n, hpn, he', hs']
              exact hwin
            · rw [malgUpdate_n, hpn, hs']
              exact halign
            · rw [hs']
              exact hs1
      exact ⟨hinv', hstep (n + 1) hinv'⟩

/-- C6: at the start of every round of the alternating `getAction`/`update`
protocol, after the install schedule has run (which is the state in which
both `getAction` and `update` invoke `activeInstance`), some installed
sub-instance's inclusive window `[s, e]` contains `τ`, so the assertion in
`activeInstance` never fails (the scan returns an index). -/
theorem malg_active_instance_exists (arms depth : ℕ) (hK : 1 ≤ arms)
    (draws : ℕ → ℕ → ℝ) (choices : ℕ → ℕ) (rewards : ℕ → ℤ)
    (hdraws : ∀ n m, 0 ≤ draws n m ∧ draws n m < 1) (n : ℕ) :
    (∃ i inst,
      (malgInstallPhase (malgRun arms depth draws choices rewards n)
          (draws n)).instances.getD i none = some inst ∧
      inst.s ≤ (malgInstallPhase (malgRun arms depth draws choices rewards n)
          (draws n)).tau ∧
      (malgInstallPhase (malgRun arms depth draws choices rewards n) (draws n)).tau
        ≤ inst.e) ∧
    (malgActiveIdx (malgInstallPhase (malgRun arms depth draws choices rewards n)
        (draws n))).isSome := by
  obtain ⟨hinv, htop⟩ := malgRun_inv arms depth hK draws choices rewards hdraws n
  obtain ⟨inst, hg, hs, he, -, -, -⟩ := htop
  set stp := malgInstallPhase (malgRun arms depth draws choices rewards n) (draws n)
  have hlen : stp.n < stp.instances.length := by
    by_contra hc
    rw [List.getD_eq_default _ _ (Nat.le_of_not_lt hc)] at hg
    exact Option.noConfusion hg
  refine ⟨⟨stp.n, inst, hg, hs, he⟩, ?_⟩
  have hsome := malgActiveScan_isSome stp.tau stp.instances stp.n inst hlen hg hs he
  unfold malgActiveIdx
  cases hscan : malgActiveScan stp.tau stp.instances with
  | none => rw [hscan] at hsome; simp at hsome
  | some p => simp

/-- Witness for C6: two arms, depth 1, all draws 0, at round 0. -/
theorem malg_active_instance_exists_witness :
    (malgActiveIdx (malgInstallPhase (malgRun 2 1 (fun _ _ => 0) (fun _ => 0) (fun _ => 0) 0)
        ((fun _ _ => (0 : ℝ)) 0))).isSome :=
  (malg_active_instance_exists 2 1 (by norm_num) (fun _ _ => 0) (fun _ => 0) (fun _ => 0)
    (fun _ _ => by norm_num) 0).2

lemma installAt_no_install (st : MalgUCB) (m : ℕ) (u : ℝ)
    (hu : ¬ u < rho st.arms ((2 : ℝ) ^ st.n) / rho st.arms ((2 : ℝ) ^ m)) :
    installAt st m u = st := by
  unfold installAt
  by_cases h1 : (st.tau - 1) % 2 ^ m = 0
  · rw [if_pos h1, if_neg hu]
  · rw [if_neg h1]

lemma malgInstallPhase_d2 (u : ℕ → ℝ) :
    malgInstallPhase (MalgUCB.init 2 2) u
      = installAt (installAt (installAt (MalgUCB.init 2 2) 2 (u 2)) 1 (u 1)) 0 (u 0) := rfl

lemma installAt_step_yes (a nd tv : ℕ) (insts : List (Option MalgInstanceState))
    (m : ℕ) (u : ℝ) (hdiv : (tv - 1) % 2 ^ m = 0)
    (hu : u < rho a ((2 : ℝ) ^ nd) / rho a ((2 : ℝ) ^ m)) :
    installAt ⟨a, nd, tv, insts⟩ m u
      = ⟨a, nd, tv, insts.set m (some ⟨UCBStrategy.init a, tv, tv + 2 ^ m - 1⟩)⟩ := by
  rw [installAt_installs ⟨a, nd, tv, insts⟩ m u hdiv hu]

lemma installAt_step_no (a nd tv : ℕ) (insts : List (Option MalgInstanceState))
    (m : ℕ) (u : ℝ) (hu : ¬ u < rho a ((2 : ℝ) ^ nd) / rho a ((2 : ℝ) ^ m)) :
    installAt ⟨a, nd, tv, insts⟩ m u = ⟨a, nd, tv, insts⟩ :=
  installAt_no_install ⟨a, nd, tv, insts⟩ m u hu

/-- The level-2 threshold at the first MALG round with `K = 2`, `D = 2`
equals 1, so any uniform draw in `[0, 1)` installs the level-2 instance. -/
lemma malg_d2_threshold_top : rho 2 ((2 : ℝ) ^ (2 : ℕ)) / rho 2 ((2 : ℝ) ^ (2 : ℕ)) = 1 :=
  div_self (ne_of_gt (rho_pos 2 _ (by norm_num) (by positivity)))

lemma malg_init_2_2 : MalgUCB.init 2 2 = (⟨2, 2, 1, [none, none, none]⟩ : MalgUCB) := rfl

/-- The level-1 install threshold `ρ(2²)/ρ(2¹)` of the first MALG round
with `K = 2`, `D = 2`. -/
noncomputable def malgT1 : ℝ := rho 2 ((2 : ℝ) ^ (2 : ℕ)) / rho 2 ((2 : ℝ) ^ (1 : ℕ))

/-- The level-0 install threshold `ρ(2²)/ρ(2⁰)` of the first MALG round
with `K = 2`, `D = 2`. -/
noncomputable def malgT0 : ℝ := rho 2 ((2 : ℝ) ^ (2 : ℕ)) / rho 2 ((2 : ℝ) ^ (0 : ℕ))

lemma malgT1_pos : 0 < malgT1 :=
  div_pos (rho_pos 2 _ (by norm_num) (by positivity))
    (rho_pos 2 _ (by norm_num) (by positivity))

lemma malgT0_pos : 0 < malgT0 :=
  div_pos (rho_pos 2 _ (by norm_num) (by positivity))
    (rho_pos 2 _ (by norm_num) (by positivity))

lemma malg_d2_step2 (u : ℕ → ℝ) (hu2 : u 2 < 1) :
    malgInstallPhase (MalgUCB.init 2 2) u
      = installAt (installAt
          (⟨2, 2, 1, [none, none, some ⟨UCBStrategy.init 2, 1, 4⟩]⟩ : MalgUCB) 1 (u 1))
          0 (u 0) := by
  have hT2 : u 2 < rho 2 ((2 : ℝ) ^ (2 : ℕ)) / rho 2 ((2 : ℝ) ^ (2 : ℕ)) := by
    rw [malg_d2_threshold_top]
    exact hu2
  rw [malgInstallPhase_d2, malg_init_2_2,
    installAt_step_yes 2 2 1 [none, none, none] 2 (u 2) (by decide) hT2]
  rfl

lemma malg_d2_step1_yes (l0 l2 : Option MalgInstanceState) (u1 : ℝ) (h : u1 < malgT1) :
    installAt (⟨2, 2, 1, [l0, none, l2]⟩ : MalgUCB) 1 u1
      = ⟨2, 2, 1, [l0, some ⟨UCBStrategy.init 2, 1, 2⟩, l2]⟩ := by
  rw [installAt_step_yes 2 2 1 [l0, none, l2] 1 u1 (by decide) h]
  rfl

lemma malg_d2_step1_no (l0 l1 l2 : Option MalgInstanceState) (u1 : ℝ) (h : ¬ u1 < malgT1) :
    installAt (⟨2, 2, 1, [l0, l1, l2]⟩ : MalgUCB) 1 u1 = ⟨2, 2, 1, [l0, l1, l2]⟩ :=
  installAt_step_no 2 2 1 [l0, l1, l2] 1 u1 h

lemma malg_d2_step0_yes (l1 l2 : Option MalgInstanceState) (u0 : ℝ) (h : u0 < malgT0) :
    installAt (⟨2, 2, 1, [none, l1, l2]⟩ : MalgUCB) 0 u0
      = ⟨2, 2, 1, [some ⟨UCBStrategy.init 2, 1, 1⟩, l1, l2]⟩ := by
  rw [installAt_step_yes 2 2 1 [none, l1, l2] 0 u0 (by decide) h]
  rfl

lemma malg_d2_step0_no (l0 l1 l2 : Option MalgInstanceState) (u0 : ℝ) (h : ¬ u0 < malgT0) :
    installAt (⟨2, 2, 1, [l0, l1, l2]⟩ : MalgUCB) 0 u0 = ⟨2, 2, 1, [l0, l1, l2]⟩ :=
  installAt_step_no 2 2 1 [l0, l1, l2] 0 u0 h

/-- Counterexample for C7 at a concrete input: on the first `getAction`
with `K = 2`, `D = 2` and all uniform draws 0 (a draw every level accepts),
the level-2 instance installs with window `[1, 4]` — length 4, not 1 — and
the instance selected as active is the level-0 instance (the smallest
installed window containing `τ = 1`), not the level-2 one. -/
theorem malg_first_round_counterexample :
    ((malgInstallPhase (MalgUCB.init 2 2) (fun _ => 0)).instances.getD 2 none).map
        MalgInstanceState.length = some 4 ∧
    malgActiveIdx (malgInstallPhase (MalgUCB.init 2 2) (fun _ => 0)) = some 0 ∧
    (4 : ℕ) ≠ 1 ∧ (some 0 : Option ℕ) ≠ some 2 := by
  have hphase : malgInstallPhase (MalgUCB.init 2 2) (fun _ => 0)
      = (⟨2, 2, 1, [some ⟨UCBStrategy.init 2, 1, 1⟩, some ⟨UCBStrategy.init 2, 1, 2⟩,
          some ⟨UCBStrategy.init 2, 1, 4⟩]⟩ : MalgUCB) := by
    rw [malg_d2_step2 (fun _ => 0) (by norm_num),
      malg_d2_step1_yes none (some ⟨UCBStrategy.init 2, 1, 4⟩) 0 malgT1_pos,
      malg_d2_step0_yes (some ⟨UCBStrategy.init 2, 1, 2⟩) (some ⟨UCBStrategy.init 2, 1, 4⟩)
        0 malgT0_pos]
  rw [hphase]
  exact ⟨rfl, rfl, by decide, by decide⟩

/-- C7 (amended): on the first `getAction` of `MalgUCB` with `K = 2`,
`D = 2`, the level-2 instance always installs — its threshold is
`ρ(4)/ρ(4) = 1` and every uniform draw is below 1 — but its window is
`[1, 4]`, of length 4 (not 1); it is the instance selected as active
exactly when the level-0 and level-1 draws both fail their thresholds. -/
theorem malg_first_round_level2 (u : ℕ → ℝ) (hu : ∀ m, 0 ≤ u m ∧ u m < 1) :
    (malgInstallPhase (MalgUCB.init 2 2) u).instances.getD 2 none
      = some ⟨UCBStrategy.init 2, 1, 4⟩ ∧
    ((malgInstallPhase (MalgUCB.init 2 2) u).instances.getD 2 none).map
        MalgInstanceState.length = some 4 ∧
    (malgActiveIdx (malgInstallPhase (MalgUCB.init 2 2) u) = some 2
      ↔ ¬ u 0 < malgT0 ∧ ¬ u 1 < malgT1) := by
  have hs2 := malg_d2_step2 u (hu 2).2
  by_cases h1 : u 1 < malgT1 <;> by_cases h0 : u 0 < malgT0
  · have hphase : malgInstallPhase (MalgUCB.init 2 2) u
        = (⟨2, 2, 1, [some ⟨UCBStrategy.init 2, 1, 1⟩, some ⟨UCBStrategy.init 2, 1, 2⟩,
            some ⟨UCBStrategy.init 2, 1, 4⟩]⟩ : MalgUCB) := by
      rw [hs2, malg_d2_step1_yes none (some ⟨UCBStrategy.init 2, 1, 4⟩) (u 1) h1,
        malg_d2_step0_yes (some ⟨UCBStrategy.init 2, 1, 2⟩) (some ⟨UCBStrategy.init 2, 1, 4⟩)
          (u 0) h0]
    rw [hphase]
    refine ⟨rfl, rfl, ?_⟩
    have ha : malgActiveIdx (⟨2, 2, 1, [some ⟨UCBStrategy.init 2, 1, 1⟩,
        some ⟨UCBStrategy.init 2, 1, 2⟩, some ⟨UCBStrategy.init 2, 1, 4⟩]⟩ : MalgUCB)
        = some 0 := rfl
    rw [ha]
    simp [h0, h1]
  · have hphase : malgInstallPhase (MalgUCB.init 2 2) u
        = (⟨2, 2, 1, [none, some ⟨UCBStrategy.init 2, 1, 2⟩,
            some ⟨UCBStrategy.init 2, 1, 4⟩]⟩ : MalgUCB) := by
      rw [hs2, malg_d2_step1_yes none (some ⟨UCBStrategy.init 2, 1, 4⟩) (u 1) h1,
        malg_d2_step0_no none (some ⟨UCBStrategy.init 2, 1, 2⟩)
          (some ⟨UCBStrategy.init 2, 1, 4⟩) (u 0) h0]
    rw [hphase]
    refine ⟨rfl, rfl, ?_⟩
    have ha : malgActiveIdx (⟨2, 2, 1, [none, some ⟨UCBStrategy.init 2, 1, 2⟩,
        some ⟨UCBStrategy.init 2, 1, 4⟩]⟩ : MalgUCB) = some 1 := rfl
    rw [ha]
    simp [h0, h1]
  · have hphase : malgInstallPhase (MalgUCB.init 2 2) u
        = (⟨2, 2, 1, [some ⟨UCBStrategy.init 2, 1, 1⟩, none,
            some ⟨UCBStrategy.init 2, 1, 4⟩]⟩ : MalgUCB) := by
      rw [hs2, malg_d2_step1_no none none (some ⟨UCBStrategy.init 2, 1, 4⟩) (u 1) h1,
        malg_d2_step0_yes none (some ⟨UCBStrategy.init 2, 1, 4⟩) (u 0) h0]
    rw [hphase]
    refine ⟨rfl, rfl, ?_⟩
    have ha : malgActiveIdx (⟨2, 2, 1, [some ⟨UCBStrategy.init 2, 1, 1⟩, none,
        some ⟨UCBStrategy.init 2, 1, 4⟩]⟩ : MalgUCB) = some 0 := rfl
    rw [ha]
    simp [h0, h1]
  · have hphase : malgInstallPhase (MalgUCB.init 2 2) u
        = (⟨2, 2, 1, [none, none, some ⟨UCBStrategy.init 2, 1, 4⟩]⟩ : MalgUCB) := by
      rw [hs2, malg_d2_step1_no none none (some ⟨UCBStrategy.init 2, 1, 4⟩) (u 1) h1,
        malg_d2_step0_no none none (some ⟨UCBStrategy.init 2, 1, 4⟩) (u 0) h0]
    rw [hphase]
    refine ⟨rfl, rfl, ?_⟩
    have ha : malgActiveIdx (⟨2, 2, 1, [none, none,
        some ⟨UCBStrategy.init 2, 1, 4⟩]⟩ : MalgUCB) = some 2 := rfl
    rw [ha]
    simp [h0, h1]

/-- Witness for C7 (amended): the all-1/2 draws. -/
theorem malg_first_round_level2_witness :
    (malgInstallPhase (MalgUCB.init 2 2) (fun _ => 1 / 2)).instances.getD 2 none
      = some ⟨UCBStrategy.init 2, 1, 4⟩ :=
  (malg_first_round_level2 (fun _ => 1 / 2) (fun _ => by norm_num)).1

end ActivePtwRepo
